import Mathlib

/-!
Verification of the dev-kid planning and validation core.

Shallow embedding of the task orchestrator (`cli/orchestrator.py`), the dbt
dependency graph (`cli/dbt_graph.py`) and the sentinel validation pipeline
(`cli/sentinel/*.py`).  Python dicts keyed by strings are modelled as
association lists, Python sets as deduplicated lists with membership tests,
and stateful loops as fuelled or structural recursion.  All definitions are
executable so that concrete runs can be checked by `decide` / `rfl`.
-/

namespace DevKid

/-- A single quote character, used when rebuilding f-strings from
`orchestrator.py` that quote a task description. -/
def sq : String := String.singleton (Char.ofNat 39)

/-! ## Task model (`orchestrator.py`, `Task` dataclass) -/

/-- Mirror of the `Task` dataclass in `cli/orchestrator.py`. -/
structure Task where
  id : String
  description : String
  agent_role : String := "Developer"
  file_locks : List String := []
  dependencies : List String := []
  constitution_rules : List String := []
  completed : Bool := false
deriving Repr, DecidableEq

/-- Mirror of the task dict entries placed into each wave of the execution
plan (`create_waves` / `_inject_sentinel_tasks` in `cli/orchestrator.py`). -/
structure PlanTask where
  task_id : String
  agent_role : String
  instruction : String
  file_locks : List String
  constitution_rules : List String
  completion_handshake : String
  dependencies : List String
  parent_task_id : Option String := none
deriving Repr, DecidableEq

/-- Mirror of the `Wave` dataclass (scheduler-internal waves hold `Task`
records; the execution-plan dicts are modelled by `PlanWave`). -/
structure Wave where
  wave_id : Nat
  strategy : String
  tasks : List Task
  rationale : String
  checkpoint_enabled : Bool := true
deriving Repr, DecidableEq

/-- Mirror of a wave dict in `execution_plan.json`
(`generate_execution_plan` output / the dbt rebuild in `execute`). -/
structure PlanWave where
  wave_id : Nat
  strategy : String
  rationale : String
  tasks : List PlanTask
deriving Repr, DecidableEq

/-! ## Dependency graph (`TaskOrchestrator.analyze_dependencies`) -/

/-- Two tasks share a locked file (used for the implicit file-derived
dependencies of `analyze_dependencies`). -/
def sharesFile (a b : Task) : Bool :=
  a.file_locks.any (fun f => b.file_locks.contains f)

/-- `analyze_dependencies` entry for task `t`: explicit dependencies from the
description plus every earlier-indexed task that locks a common file.  Task
ids are unique in source order (assigned `T001`, `T002`, … by `parse_tasks`),
so "earlier-indexed" is the prefix of the list before the first occurrence of
`t.id`. -/
def depGraph (tasks : List Task) (t : Task) : List String :=
  t.dependencies ++
    (((tasks.takeWhile (fun u => u.id ≠ t.id)).filter
      (fun u => sharesFile t u)).map (fun u => u.id))

/-! ## Wave scheduling (`TaskOrchestrator.create_waves`) -/

/-- The "assigned" set is seeded with the ids of already-completed tasks
(set semantics: deduplicated). -/
def seedAssigned (tasks : List Task) : List String :=
  ((tasks.filter (fun t => t.completed)).map (fun t => t.id)).dedup

/-- One scan over the remaining tasks building the current wave
(the inner `for task in remaining` loop of `create_waves`): a task joins the
wave when every dependency is in the live `assigned` set and none of its
locked files is already claimed in `waveFiles`.  Returns the wave's tasks
together with the updated assigned set and claimed file set. -/
def scanWave (dep : Task → List String) :
    List Task → List String → List String → (List Task × List String × List String)
  | [], assigned, waveFiles => ([], assigned, waveFiles)
  | t :: rest, assigned, waveFiles =>
    if assigned.contains t.id then
      scanWave dep rest assigned waveFiles
    else if (dep t).all (fun d => assigned.contains d) then
      if t.file_locks.any (fun f => waveFiles.contains f) then
        scanWave dep rest assigned waveFiles
      else
        let r := scanWave dep rest (t.id :: assigned) (t.file_locks ++ waveFiles)
        (t :: r.1, r.2)
    else
      scanWave dep rest assigned waveFiles

/-- The strategy tag is purely a function of wave size. -/
def strategyFor (waveTasks : List Task) : String :=
  if waveTasks.length > 1 then "PARALLEL_SWARM" else "SEQUENTIAL_MERGE"

/-- The `while len(assigned_tasks) < len(self.tasks)` loop of `create_waves`.
`none` models the fatal abort (`sys.exit(1)`) taken when a scan closes with an
empty candidate set; the fuel (one more than the task count) can never run out
because every emitted wave assigns at least one new task. -/
def wavesLoop (tasks : List Task) (dep : Task → List String) :
    Nat → List String → Nat → List Wave → Option (List Wave)
  | 0, _, _, _ => none
  | fuel + 1, assigned, waveId, acc =>
    if assigned.length < tasks.length then
      let remaining :=
        (tasks.filter (fun t => !t.completed)).filter
          (fun t => !assigned.contains t.id)
      if remaining.isEmpty then some acc
      else
        let r := scanWave dep remaining assigned []
        if r.1.isEmpty then none
        else
          let w : Wave :=
            { wave_id := waveId
              strategy := strategyFor r.1
              tasks := r.1
              rationale := "Wave " ++ toString waveId ++ ": " ++
                toString r.1.length ++ " independent task(s) with no file conflicts" }
          wavesLoop tasks dep fuel r.2.1 (waveId + 1) (acc ++ [w])
    else some acc

/-- `TaskOrchestrator.create_waves`: returns the emitted wave list, or `none`
on the fatal circular-dependency abort. -/
def createWaves (tasks : List Task) : Option (List Wave) :=
  wavesLoop tasks (depGraph tasks) (tasks.length + 1) (seedAssigned tasks) 1 []

/-! ## Sentinel injection (`TaskOrchestrator._inject_sentinel_tasks`, per-n) -/

/-- The synthetic sentinel task appended after developer task `t`, covering
`batch` (the `sentinel_task` dict of the `per-n` branch). -/
def mkSentinel (t : PlanTask) (batch : List PlanTask) : PlanTask :=
  let covered := String.intercalate ", " (batch.map (fun b => b.task_id))
  let instruction :=
    "Sentinel validation for " ++ covered ++ ": verify implementations pass tests"
  { task_id := "SENTINEL-" ++ t.task_id
    agent_role := "Sentinel"
    instruction := instruction
    file_locks := t.file_locks
    constitution_rules := []
    completion_handshake :=
      "Upon success, update tasks.md line containing " ++ sq ++ instruction ++
        sq ++ " to [x]"
    dependencies := batch.map (fun b => b.task_id)
    parent_task_id := some t.task_id }

/-- The indexed loop of the `per-n` branch: after every `n`-th developer task
(and after the final task) insert a sentinel covering
`dev_tasks[max(0, i + 1 - n) : i + 1]`. -/
def injectPerNGo (n : Nat) (dev : List PlanTask) :
    Nat → List PlanTask → List PlanTask
  | _, [] => []
  | i, t :: rest =>
    (if (i + 1) % n == 0 || i == dev.length - 1 then
      [t, mkSentinel t ((dev.take (i + 1)).drop (i + 1 - n))]
    else [t]) ++ injectPerNGo n dev (i + 1) rest

/-- `_inject_sentinel_tasks` with `injection_granularity = per-n` applied to
the developer tasks of one wave. -/
def injectPerN (n : Nat) (dev : List PlanTask) : List PlanTask :=
  injectPerNGo n dev 0 dev

/-! ## dbt wave rebuild (`TaskOrchestrator.execute`, dbt override block) -/

/-- `new_waves_by_num` lookup: the tasks assigned wave number `w`, in
original plan iteration order. -/
def wavesByNum (l : List (PlanTask × Nat)) (w : Nat) : List PlanTask :=
  (l.filter (fun p => p.2 == w)).map (fun p => p.1)

/-- `max(new_waves_by_num.keys())` (0 when the assignment is empty). -/
def maxWaveNum (l : List (PlanTask × Nat)) : Nat :=
  l.foldl (fun m p => max m p.2) 0

/-- The intra-wave file-lock conflict scan used to pick the rebuilt wave's
strategy: walk the tasks' lock lists with a seen-set and flag the first
repeat. -/
def lockConflictGo : List String → List String → Bool
  | [], _ => false
  | f :: rest, seen =>
    if seen.contains f then true else lockConflictGo rest (f :: seen)

/-- `has_conflict` for one rebuilt wave's task list. -/
def hasLockConflict (ts : List PlanTask) : Bool :=
  lockConflictGo (ts.flatMap (fun t => t.file_locks)) []

/-- The wave-list rebuild after the dbt wave-number override
(`orchestrator.py`, `execute`): iterate `wid` from 1 to the maximum assigned
wave number, skip empty wave numbers, and emit the surviving waves with their
original numbers as `wave_id`. -/
def rebuildWaves (l : List (PlanTask × Nat)) : List PlanWave :=
  (List.range' 1 (maxWaveNum l)).filterMap (fun wid =>
    let ts := wavesByNum l wid
    if ts.isEmpty then none
    else some
      { wave_id := wid
        strategy :=
          if hasLockConflict ts || ts.length == 1 then "SEQUENTIAL_MERGE"
          else "PARALLEL_SWARM"
        rationale := "dbt dependency-ordered wave " ++ toString wid
        tasks := ts })

/-! ## dbt dependency graph (`cli/dbt_graph.py`) -/

/-- Mirror of the `DBTModel` dataclass. -/
structure DBTModel where
  name : String
  file_path : String
  materialization : String := "view"
  has_description : Bool := false
  has_unique_key : Bool := false
  upstream : List String := []
  downstream : List String := []
  source : String := "manifest"
deriving Repr, DecidableEq

/-- `DBTGraph.nodes`: the insertion-ordered dict name → model, as an
association list with unique keys. -/
structure DBTGraph where
  nodes : List (String × DBTModel)
deriving Repr, DecidableEq

/-- `graph.nodes.get(name)`. -/
def DBTGraph.lookup (g : DBTGraph) (n : String) : Option DBTModel :=
  (g.nodes.find? (fun p => p.1 == n)).map (fun p => p.2)

/-- The dict's key list (iteration order). -/
def DBTGraph.keys (g : DBTGraph) : List String := g.nodes.map (fun p => p.1)

/-! ## Topological wave assignment (`DBTTopologicalSort.assign_waves`) -/

/-- The in-scope upstream references of `b`
(`for up in node.upstream: if up in in_scope`); empty when `b` has no graph
node (`graph.nodes.get(name) is None → continue`).  Its length is `b`'s
initial in-degree, counted with multiplicity as in the source. -/
def upstreamInScope (g : DBTGraph) (scope : List String) (b : String) :
    List String :=
  match g.lookup b with
  | none => []
  | some node => node.upstream.filter (fun u => scope.contains u)

/-- `adjacency[a]`: every in-scope `b` repeated once per occurrence of `a`
in `b`'s in-scope upstream list (the source appends `b` to `adjacency[up]`
once per such occurrence while iterating the scope). -/
def adjacencyOf (g : DBTGraph) (scope : List String) (a : String) :
    List String :=
  scope.flatMap (fun b =>
    ((upstreamInScope g scope b).filter (fun u => u == a)).map (fun _ => b))

/-- `in_degree[b]` lookup (0 for a missing key, which cannot occur for
in-scope names). -/
def degOf (m : List (String × Int)) (b : String) : Int :=
  ((m.find? (fun p => p.1 == b)).map (fun p => p.2)).getD 0

/-- `in_degree[k] += δ` (keys are unique, so mapping over all entries is the
dict update). -/
def bump (m : List (String × Int)) (k : String) (δ : Int) :
    List (String × Int) :=
  m.map (fun p => if p.1 == k then (p.1, p.2 + δ) else p)

/-- The decrement loop of one Kahn iteration over the flattened target list
`queue.flatMap adjacency`: decrement each target's in-degree and collect, in
order, the targets whose in-degree just reached 0 (`next_queue`). -/
def decrementTargets (m : List (String × Int)) :
    List String → (List (String × Int) × List String)
  | [] => (m, [])
  | d :: rest =>
    let m' := bump m d (-1)
    let r := decrementTargets m' rest
    (r.1, if degOf m' d == 0 then d :: r.2 else r.2)

/-- The `while queue:` loop of `assign_waves`: assign the current wave number
to every queued name, apply the decrements, and continue with the new
frontier.  Fuel (`scope.length + 1` at the top call) cannot run out because
every iteration with a nonempty queue assigns at least one new name. -/
def kahnLoop (adj : String → List String) :
    Nat → List (String × Int) → List String → Nat → List (String × Nat) →
      List (String × Nat)
  | 0, _, _, _, acc => acc
  | fuel + 1, deg, queue, wave, acc =>
    if queue.isEmpty then acc
    else
      let r := decrementTargets deg (queue.flatMap adj)
      kahnLoop adj fuel r.1 r.2 (wave + 1) (acc ++ queue.map (fun n => (n, wave)))

/-- The `wave_assignment` entries produced by the Kahn loop (each name is
assigned at most once, so the dict is this append-only association list). -/
def kahnAssigned (task_model_names : List String) (g : DBTGraph) :
    List (String × Nat) :=
  let scope := task_model_names.dedup
  kahnLoop (adjacencyOf g scope) (scope.length + 1)
    (scope.map (fun n => (n, ((upstreamInScope g scope n).length : Int))))
    (scope.filter (fun n => (upstreamInScope g scope n).length == 0)) 1 []

/-- `DBTTopologicalSort.assign_waves`: the Kahn assignment followed by
`wave_assignment.setdefault(name, 1)` for every unreached in-scope name. -/
def assign_waves (task_model_names : List String) (g : DBTGraph) :
    List (String × Nat) :=
  let scope := task_model_names.dedup
  let acc := kahnAssigned task_model_names g
  acc ++ (scope.filter (fun n => !(acc.map Prod.fst).contains n)).map
    (fun n => (n, 1))

/-- `wave_assignment[n]` on the final mapping. -/
def waveOf (assignment : List (String × Nat)) (n : String) : Option Nat :=
  (assignment.find? (fun p => p.1 == n)).map (fun p => p.2)

/-- An upstream edge `a → b` of the graph restricted to the scope: `b` is in
scope and `a` occurs among `b`'s in-scope upstream references. -/
def EdgeIn (g : DBTGraph) (scope : List String) (a b : String) : Prop :=
  b ∈ scope ∧ a ∈ upstreamInScope g scope b

instance (g : DBTGraph) (scope : List String) (a b : String) :
    Decidable (EdgeIn g scope a b) :=
  inferInstanceAs (Decidable (b ∈ scope ∧ a ∈ upstreamInScope g scope b))

/-- A nonempty closed walk along `R` — the (classically equivalent) witness
that a finite relation has a cycle. -/
def HasClosedWalk (R : String → String → Prop) : Prop :=
  ∃ (f : Nat → String) (n : Nat), 0 < n ∧ f n = f 0 ∧ ∀ k < n, R (f k) (f (k + 1))

/-! ## Cycle detection (`CycleDetector.detect_cycle`) -/

/-- `graph.nodes[node].downstream` (total: `[]` for a missing key; the
detector only indexes keys, where the two agree). -/
def downstreamOf (g : DBTGraph) (u : String) : List String :=
  ((g.lookup u).map (fun m => m.downstream)).getD []

/-- A downstream edge as the cycle detector walks it: `u` has a graph node
whose downstream list contains `v`, and `v` is itself a graph key (the `if
downstream not in color: continue` skip). -/
def edgeDB (g : DBTGraph) (u v : String) : Bool :=
  match g.lookup u with
  | none => false
  | some m => m.downstream.contains v && g.keys.contains v

/-- Propositional form of `edgeDB`. -/
def EdgeD (g : DBTGraph) (u v : String) : Prop := edgeDB g u v = true

instance (g : DBTGraph) (u v : String) : Decidable (EdgeD g u v) :=
  inferInstanceAs (Decidable (_ = true))

/-- The mutable DFS state: `gray` is the current DFS stack (most recent
first), `black` records fully-processed nodes in finishing order, and
`parent` is the tree-edge map (`parent[child] = parent`; a node with no
entry corresponds to Python's `None` value). -/
structure DfsState where
  gray : List String
  black : List String
  parent : List (String × String)
deriving Repr, DecidableEq

/-- `parent.get(current)`. -/
def parentOf (parent : List (String × String)) (u : String) : Option String :=
  (parent.find? (fun p => p.1 == u)).map (fun p => p.2)

/-- The `while True` climb of the cycle reconstruction: follow parent
pointers from the current node, collecting each parent in order until the
pointer is absent or equals `v`.  Fuel (`parent.length + 1` at the call
site) bounds the climb; it cannot run out because the climb visits distinct
parented nodes. -/
def climb (parent : List (String × String)) : Nat → String → String → List String
  | 0, _, _ => []
  | fuel + 1, v, current =>
    match parentOf parent current with
    | none => []
    | some p => if p = v then [] else p :: climb parent fuel v p

/-- The `cycle_path` reconstruction on a gray neighbour `v` of `u`:
`[v, u]`, then the climbed parents of `u`, then `v` again, reversed. -/
def buildCycle (parent : List (String × String)) (u v : String) : List String :=
  (([v, u] ++ climb parent (parent.length + 1) v u) ++ [v]).reverse

/-- The `for downstream in graph.nodes[node].downstream` loop of `dfs`:
skip names that are not graph keys, report a reconstructed cycle on a gray
neighbour, skip black neighbours, and run the supplied visit (the recursive
`dfs` call at one less fuel) on white ones.  `none` propagates the visitor's
fuel exhaustion. -/
def neighLoop (g : DBTGraph)
    (visit : String → DfsState → Option (Option (List String) × DfsState))
    (u : String) : List String → DfsState →
      Option (Option (List String) × DfsState)
  | [], st => some (none, st)
  | v :: vs, st =>
    if g.keys.contains v = false then neighLoop g visit u vs st
    else if st.gray.contains v then some (some (buildCycle st.parent u v), st)
    else if st.black.contains v then neighLoop g visit u vs st
    else
      match visit v st with
      | none => none
      | some (some cyc, st2) => some (some cyc, st2)
      | some (none, st2) => neighLoop g visit u vs st2

/-- One `dfs(node)` call of `CycleDetector.detect_cycle`: record the tree
edge from the caller (Python sets `parent[downstream] = node` immediately
before recursing), mark the node gray, process its downstream list, then
recolour it black.  `none` models fuel exhaustion, which never occurs at
fuel above the white-node count. -/
def dfsVisit (g : DBTGraph) :
    Nat → String → Option String → DfsState →
      Option (Option (List String) × DfsState)
  | 0, _, _, _ => none
  | fuel + 1, u, opar, st =>
    let st1 : DfsState :=
      { gray := u :: st.gray
        black := st.black
        parent := match opar with
          | none => st.parent
          | some c => (u, c) :: st.parent }
    match neighLoop g (fun v s => dfsVisit g fuel v (some u) s) u
        (downstreamOf g u) st1 with
    | none => none
    | some (some cyc, st2) => some (some cyc, st2)
    | some (none, st2) =>
      some (none, { gray := st2.gray.erase u
                    black := st2.black ++ [u]
                    parent := st2.parent })

/-- Fuel for each top-level `dfs` call: strictly more than the number of
graph keys, hence strictly more than the number of white nodes. -/
def dfsFuel (g : DBTGraph) : Nat := g.keys.length + 1

/-- The `for node in list(graph.nodes)` driver loop: run `dfs` on each still
white key, returning the first reported cycle. -/
def detectLoop (g : DBTGraph) : List String → DfsState → Option (List String)
  | [], _ => none
  | u :: rest, st =>
    if st.gray.contains u || st.black.contains u then detectLoop g rest st
    else
      match dfsVisit g (dfsFuel g) u none st with
      | none => none
      | some (some cyc, _) => some cyc
      | some (none, st2) => detectLoop g rest st2

/-- `detect_cycle` up to the final `" → ".join`: the cycle path as a list. -/
def detectCycleList (g : DBTGraph) : Option (List String) :=
  detectLoop g g.keys ⟨[], [], []⟩

/-- `CycleDetector.detect_cycle`: the joined human-readable path string. -/
def detect_cycle (g : DBTGraph) : Option String :=
  (detectCycleList g).map (fun p => String.intercalate " → " p)

/-- The number of white (unvisited) graph keys of a DFS state. -/
def whiteCount (g : DBTGraph) (st : DfsState) : Nat :=
  (g.keys.filter
    (fun k => !(st.gray.contains k) && !(st.black.contains k))).length

/-- The gray stack is a parent chain: each entry's parent pointer names the
next entry, along a real graph edge, and the root has no parent pointer. -/
def GrayChain (g : DBTGraph) (parent : List (String × String)) :
    List String → Prop
  | [] => True
  | [x] => parentOf parent x = none
  | x :: y :: rest =>
    parentOf parent x = some y ∧ EdgeD g y x ∧
      GrayChain g parent (y :: rest)

/-- Black-node invariant: every edge out of a black node leads to a black
node that finished strictly earlier. -/
def EdgeInvB (g : DBTGraph) (black : List String) : Prop :=
  ∀ a ∈ black, ∀ b, EdgeD g a b →
    b ∈ black ∧ black.indexOf b < black.indexOf a

/-- A parent-pointer path from `u` up through `pre` to `v`, each pointer
paired with the graph edge it was recorded for (parent → child). -/
def ParentPathE (g : DBTGraph) (parent : List (String × String)) :
    String → List String → String → Prop
  | u, [], v => parentOf parent u = some v ∧ EdgeD g v u
  | u, c :: cs, v =>
    parentOf parent u = some c ∧ EdgeD g c u ∧ ParentPathE g parent c cs v

/-- The DFS state invariant. -/
structure DfsInv (g : DBTGraph) (st : DfsState) : Prop where
  gray_keys : ∀ x ∈ st.gray, x ∈ g.keys
  black_keys : ∀ x ∈ st.black, x ∈ g.keys
  gray_nodup : st.gray.Nodup
  black_nodup : st.black.Nodup
  gray_black : ∀ x ∈ st.gray, x ∉ st.black
  parent_keys_nodup : (st.parent.map Prod.fst).Nodup
  parent_edge : ∀ pr ∈ st.parent, EdgeD g pr.2 pr.1
  parent_nonwhite : ∀ pr ∈ st.parent, pr.1 ∈ st.gray ∨ pr.1 ∈ st.black
  gray_chain : GrayChain g st.parent st.gray
  black_inv : EdgeInvB g st.black

/-- A sound reported cycle: a nonempty path list covering some closed walk
of the downstream edge relation. -/
def CycleSound (g : DBTGraph) (p : List String) : Prop :=
  p ≠ [] ∧ ∃ (f : Nat → String) (n : Nat), 0 < n ∧ f n = f 0 ∧
    (∀ k < n, EdgeD g (f k) (f (k + 1))) ∧ ∀ k : Nat, f k ∈ p

/-- Postcondition of a completed (cycle-free) `dfs` call: the invariant
holds again, the gray stack is restored and the black list has only grown
at its end. -/
def DfsPost (g : DBTGraph) (st st' : DfsState) : Prop :=
  DfsInv g st' ∧ st'.gray = st.gray ∧ ∃ nb, st'.black = st.black ++ nb

/-- Specification of a visit callback as `neighLoop` relies on it: on a
white key below `u` it reports only sound cycles, and on cycle-free
completion it restores the invariant and blackens the neighbour. -/
def VisitOk (g : DBTGraph) (u : String)
    (visit : String → DfsState → Option (Option (List String) × DfsState)) :
    Prop :=
  ∀ v st, DfsInv g st → v ∈ g.keys → v ∉ st.gray → v ∉ st.black →
    (∃ t, st.gray = u :: t) → EdgeD g u v →
    (∀ cyc st', visit v st = some (some cyc, st') → CycleSound g cyc) ∧
    (∀ st', visit v st = some (none, st') →
      DfsPost g st st' ∧ v ∈ st'.black)

/-- Fuel adequacy of a visit callback: it does not exhaust fuel while the
white-node count stays at or below the bound. -/
def VisitNoFuelout (g : DBTGraph) (u : String)
    (visit : String → DfsState → Option (Option (List String) × DfsState))
    (bound : Nat) : Prop :=
  ∀ v st, DfsInv g st → v ∈ g.keys → v ∉ st.gray → v ∉ st.black →
    (∃ t, st.gray = u :: t) → EdgeD g u v →
    whiteCount g st ≤ bound → visit v st ≠ none

/-! ## Change radius (`cli/sentinel/cascade_analyzer.py`) -/

/-- Mirror of `InterfaceChangeReport` (the fields read by the evaluator). -/
structure InterfaceChangeReport where
  file_path : String
  breaking_changes : List String
  non_breaking_changes : List String
deriving Repr, DecidableEq

/-- One `{path, lines_added, lines_removed}` dict of `files_changed`. -/
structure FileChange where
  path : String
  lines_added : Nat
  lines_removed : Nat
deriving Repr, DecidableEq

/-- Mirror of `ChangeRadiusReport`. -/
structure ChangeRadiusReport where
  files_changed_count : Nat
  lines_changed_total : Nat
  interface_changes_count : Nat
  budget_files : Nat
  budget_lines : Nat
  allow_interface_changes : Bool
  cross_wave_files : List String
  budget_exceeded : Bool
  violations : List String
deriving Repr, DecidableEq

/-- `ChangeRadiusEvaluator._find_cross_wave_conflicts`: the changed paths that
appear in ANY wave's `file_locks` of the execution plan (the plan dict carries
no marker for the verification task's own wave, so no wave is excluded).
Set semantics: deduplicated collection order. -/
def findCrossWaveConflicts (changedPaths : List String) (waves : List PlanWave) :
    List String :=
  ((waves.flatMap (fun w => w.tasks.flatMap (fun t => t.file_locks))).filter
    (fun lk => changedPaths.contains lk)).dedup

/-- `ChangeRadiusEvaluator.evaluate` with configuration
`(maxFiles, maxLines, allowInterface)`. -/
def evaluateRadius (maxFiles maxLines : Nat) (allowInterface : Bool)
    (files_changed : List FileChange)
    (interface_reports : List InterfaceChangeReport)
    (planWaves : List PlanWave) : ChangeRadiusReport :=
  let files_count := files_changed.length
  let lines_total :=
    (files_changed.map (fun fc => fc.lines_added + fc.lines_removed)).sum
  let interface_changes_count :=
    (interface_reports.map (fun r =>
      r.breaking_changes.length + r.non_breaking_changes.length)).sum
  let changed_paths := (files_changed.map (fun fc => fc.path)).dedup
  let cross_wave_files := findCrossWaveConflicts changed_paths planWaves
  let violations :=
    (if files_count > maxFiles then ["files"] else []) ++
    (if lines_total > maxLines then ["lines"] else []) ++
    (if interface_changes_count > 0 && !allowInterface then ["interface"] else []) ++
    (if !cross_wave_files.isEmpty then ["cross_wave"] else [])
  { files_changed_count := files_count
    lines_changed_total := lines_total
    interface_changes_count := interface_changes_count
    budget_files := maxFiles
    budget_lines := maxLines
    allow_interface_changes := allowInterface
    cross_wave_files := cross_wave_files
    budget_exceeded := !violations.isEmpty
    violations := violations }

/-! ## Sentinel pipeline control flow (`cli/sentinel/runner.py`, `run`) -/

/-- Pipeline result tag. -/
inductive SResult | PASS | FAIL | ERROR
deriving Repr, DecidableEq

/-- The outcome of one tier of the fix loop (fields read by `run`). -/
structure TierResult where
  passed : Bool := false
  skipped : Bool := false
deriving Repr, DecidableEq

/-- The externally-determined inputs of one `SentinelRunner.run` call: the
placeholder findings, the fail-on-detect policy, the detected test command,
whether the tier phase raised, and both tier outcomes. -/
structure RunInput where
  placeholder_violations : List String
  fail_on_detect : Bool
  test_cmd : Option String
  tier_exception : Option String
  tier1 : TierResult
  tier2 : TierResult
deriving Repr, DecidableEq

/-- What `run` produced: the decided result, the halt flag, and whether
control ever reached the `_write_manifest` call of phase 5. -/
structure RunOutcome where
  result : SResult
  should_halt_wave : Bool
  manifest_written : Bool
deriving Repr, DecidableEq

/-- Control flow of `SentinelRunner.run`: a placeholder FAIL (with
fail-on-detect) and the no-test-command case both `return result_obj`
directly, before the phase-5 manifest block; every other path falls through
to cascade (phase 4, errors swallowed) and then manifest writing (phase 5). -/
def sentinelRun (inp : RunInput) : RunOutcome :=
  if !inp.placeholder_violations.isEmpty && inp.fail_on_detect then
    { result := .FAIL, should_halt_wave := true, manifest_written := false }
  else
    match inp.test_cmd with
    | none => { result := .PASS, should_halt_wave := false, manifest_written := false }
    | some _ =>
      match inp.tier_exception with
      | some _ => { result := .ERROR, should_halt_wave := true, manifest_written := true }
      | none =>
        if inp.tier1.passed then
          { result := .PASS, should_halt_wave := false, manifest_written := true }
        else if inp.tier2.passed then
          { result := .PASS, should_halt_wave := false, manifest_written := true }
        else
          { result := .FAIL, should_halt_wave := true, manifest_written := true }

/-! ## Cascade annotation (`CascadeAnalyzer.annotate_tasks`) -/

/-- A line of `tasks.md`, as its character list. -/
abbrev Line := List Char

/-- True when `pat` occurs as a contiguous substring of `l`
(the Python `task_id in line` test). -/
def hasInfix (pat : Line) : Line → Bool
  | [] => pat.isPrefixOf []
  | c :: rest => pat.isPrefixOf (c :: rest) || hasInfix pat rest

/-- The `annotate_tasks` match: a pending task line
(`line.startswith('- [ ]')`) containing the task id. -/
def lineMatches (tid : Line) (l : Line) : Bool :=
  ("- [ ]".data).isPrefixOf l && hasInfix tid l

/-- Insert `warning` after the first line matching `tid`
(the `for i, line in enumerate(modified_lines)` / `insert(i + 1, …)` / `break`
body of `annotate_tasks`); unchanged when no line matches. -/
def insertWarning (tid : Line) (warning : Line) : List Line → List Line
  | [] => []
  | l :: rest =>
    if lineMatches tid l then l :: warning :: rest
    else l :: insertWarning tid warning rest

/-- `annotate_tasks` content transformation: one insertion pass per affected
task id, each scanning the then-current line list. -/
def annotateContent (affected : List Line) (warning : Line)
    (lines : List Line) : List Line :=
  affected.foldl (fun acc tid => insertWarning tid warning acc) lines

/-- Loop invariant of the Kahn wave-assignment loop (`assign_waves`): the
in-degree table keys are exactly the scope; the accumulated assignment has
unique, in-scope keys with waves in `[1, wave)`; the queue is the
zero-in-degree unassigned frontier; each in-degree equals the number of
in-scope upstream occurrences from still-unassigned sources; and every
assigned name's in-scope predecessors are assigned strictly earlier. -/
structure KahnInv (g : DBTGraph) (scope : List String)
    (deg : List (String × Int)) (queue : List String) (wave : Nat)
    (acc : List (String × Nat)) : Prop where
  keys_eq : deg.map Prod.fst = scope
  one_le_wave : 1 ≤ wave
  acc_nodup : (acc.map Prod.fst).Nodup
  acc_scope : ∀ p ∈ acc, p.1 ∈ scope ∧ 1 ≤ p.2 ∧ p.2 < wave
  q_nodup : queue.Nodup
  q_scope : ∀ n ∈ queue, n ∈ scope
  q_unassigned : ∀ n ∈ queue, n ∉ acc.map Prod.fst
  deg_eq : ∀ b ∈ scope, degOf deg b =
    (((upstreamInScope g scope b).filter
      (fun a => !((acc.map Prod.fst).contains a))).length : Int)
  q_zero : ∀ n ∈ queue, degOf deg n = 0
  zero_in_q : ∀ b ∈ scope, degOf deg b = 0 → b ∈ acc.map Prod.fst ∨ b ∈ queue
  acc_pred : ∀ p ∈ acc, ∀ a, EdgeIn g scope a p.1 →
    ∃ wa, (a, wa) ∈ acc ∧ wa < p.2

/-! ## Concrete inputs used by closed theorems -/

/-- Spec §8 example task 1: `T1` locks `a.py`. -/
def c1T1 : Task := { id := "T001", description := "edit a.py", file_locks := ["a.py"] }

/-- Spec §8 example task 2: `T2` locks `a.py`, no explicit dependency. -/
def c1T2 : Task := { id := "T002", description := "edit a.py again", file_locks := ["a.py"] }

/-- Spec §8 example task 3: `T3` locks `b.py`, depends on `T2`. -/
def c1T3 : Task :=
  { id := "T003", description := "edit b.py after T002", file_locks := ["b.py"]
    dependencies := ["T002"] }

/-- The task list of the spec §8 scheduling example. -/
def c1Tasks : List Task := [c1T1, c1T2, c1T3]

/-- A completed task locking `x.py`. -/
def c2Done : Task :=
  { id := "T001", description := "already done", file_locks := ["x.py"], completed := true }

/-- A pending task whose only predecessor is the completed `T001`. -/
def c2Pend : Task :=
  { id := "T002", description := "todo after T001", file_locks := ["y.py"]
    dependencies := ["T001"] }

/-- The wave list `create_waves` emits for `[c2Done, c2Pend]`: the completed
task is excluded and the pending task lands in wave 1. -/
def c2Ws : List Wave :=
  [{ wave_id := 1, strategy := "SEQUENTIAL_MERGE", tasks := [c2Pend]
     rationale := "Wave 1: 1 independent task(s) with no file conflicts" }]

/-- A run whose placeholder scan found a violation, with fail-on-detect on. -/
def c3FailInput : RunInput :=
  { placeholder_violations := ["src/auth.py:3 TODO"], fail_on_detect := true
    test_cmd := some "python -m pytest", tier_exception := none
    tier1 := {}, tier2 := {} }

/-- A clean run in a project with no detectable test framework. -/
def c3NoTestInput : RunInput :=
  { placeholder_violations := [], fail_on_detect := true
    test_cmd := none, tier_exception := none, tier1 := {}, tier2 := {} }

/-- Developer task `i` of the five-task injection example. -/
def c6Dev (i : Nat) : PlanTask :=
  { task_id := "T00" ++ toString i, agent_role := "Developer"
    instruction := "implement part " ++ toString i, file_locks := []
    constitution_rules := [], completion_handshake := "", dependencies := [] }

/-- One wave containing five developer tasks. -/
def c6Tasks : List PlanTask := [c6Dev 1, c6Dev 2, c6Dev 3, c6Dev 4, c6Dev 5]

/-- A task assigned (post-override) wave number 1. -/
def c7TaskA : PlanTask :=
  { task_id := "A", agent_role := "Developer", instruction := "build model a"
    file_locks := ["models/a.sql"], constitution_rules := []
    completion_handshake := "", dependencies := [] }

/-- A task assigned (post-override) wave number 3, with no task at wave 2. -/
def c7TaskB : PlanTask :=
  { task_id := "B", agent_role := "Developer", instruction := "unrelated work"
    file_locks := ["src/util.py"], constitution_rules := []
    completion_handshake := "", dependencies := [] }

/-- A wave-number assignment with an empty intermediate wave number (2). -/
def c7Assign : List (PlanTask × Nat) := [(c7TaskA, 1), (c7TaskB, 3)]

/-- The first wave emitted by `rebuildWaves c7Assign`. -/
def c7WaveA : PlanWave :=
  { wave_id := 1, strategy := "SEQUENTIAL_MERGE"
    rationale := "dbt dependency-ordered wave 1", tasks := [c7TaskA] }

/-- The verification task's own wave: its parent task `T001` locks
`src/auth.py`, and no other wave exists in the plan. -/
def c8OwnWave : PlanWave :=
  { wave_id := 1, strategy := "SEQUENTIAL_MERGE", rationale := "wave 1"
    tasks := [{ task_id := "T001", agent_role := "Developer"
                instruction := "implement auth", file_locks := ["src/auth.py"]
                constitution_rules := [], completion_handshake := ""
                dependencies := [] }] }

/-- Affected task id of the cascade counterexample. -/
def c9Tid : Line := "T010".data

/-- The cascade warning block (first line shape) of the counterexample. -/
def c9Warning : Line := "  > **[SENTINEL CASCADE WARNING]**".data

/-- A task list with one pending task containing `T010`. -/
def c9Lines : List Line := ["- [ ] T010 implement auth in src/auth.py".data]

/-- Witness input for the non-idempotence theorem: a different pending task. -/
def c9WLines : List Line := ["- [ ] T011 add tests".data]

/-- Witness task id. -/
def c9WTid : Line := "T011".data

/-- Three changed files totalling exactly the default 150-line budget. -/
def c10Files : List FileChange :=
  [⟨"src/a.py", 50, 0⟩, ⟨"src/b.py", 25, 25⟩, ⟨"src/c.py", 0, 50⟩]

/-- Staging model with no upstream references. -/
def c5Stg : DBTModel := { name := "stg_orders", file_path := "models/stg_orders.sql" }

/-- Dimension model with no upstream references. -/
def c5Dim : DBTModel :=
  { name := "dim_customers", file_path := "models/dim_customers.sql" }

/-- Fact model depending on both base models. -/
def c5Fct : DBTModel :=
  { name := "fct_orders", file_path := "models/fct_orders.sql"
    upstream := ["stg_orders", "dim_customers"] }

/-- The spec's example model graph. -/
def c5G : DBTGraph := ⟨[("stg_orders", c5Stg), ("dim_customers", c5Dim),
  ("fct_orders", c5Fct)]⟩

/-- Task model names: the three graph models plus a name with no graph node
(and hence no incident edge). -/
def c5Names : List String :=
  ["stg_orders", "dim_customers", "fct_orders", "lone_model"]

/-- Acyclic two-model graph: `a`'s downstream is `b`. -/
def c4Acyc : DBTGraph :=
  ⟨[("a", { name := "a", file_path := "models/a.sql", downstream := ["b"] }),
    ("b", { name := "b", file_path := "models/b.sql" })]⟩

/-- Cyclic two-model graph: `a → b → a` along downstream edges. -/
def c4Cyc : DBTGraph :=
  ⟨[("a", { name := "a", file_path := "models/a.sql", downstream := ["b"] }),
    ("b", { name := "b", file_path := "models/b.sql", downstream := ["a"] })]⟩

/-! # Theorems -/

/-! ## Helper lemmas -/

theorem waveId_filterMap_pairwise (f : Nat → Option PlanWave)
    (hf : ∀ x w, f x = some w → w.wave_id = x) :
    ∀ xs : List Nat, xs.Pairwise (· < ·) →
      ((xs.filterMap f).map (fun w => w.wave_id)).Pairwise (· < ·) := by
  intro xs
  induction xs with
  | nil => intro _; simp
  | cons x tl ih =>
    intro hp
    obtain ⟨hx, htl⟩ := List.pairwise_cons.mp hp
    rw [List.filterMap_cons]
    cases hfx : f x with
    | none => exact ih htl
    | some w =>
      rw [List.map_cons]
      refine List.pairwise_cons.mpr ⟨?_, ih htl⟩
      intro y hy
      obtain ⟨w', hw', rfl⟩ := List.mem_map.mp hy
      obtain ⟨z, hz, hfz⟩ := List.mem_filterMap.mp hw'
      rw [hf x w hfx, hf z w' hfz]
      exact hx z hz

theorem mem_axis_blocks (s : String) (c1 c2 c3 c4 : Prop)
    [Decidable c1] [Decidable c2] [Decidable c3] [Decidable c4] :
    (s ∈ (if c1 then ["files"] else []) ++ (if c2 then ["lines"] else []) ++
        (if c3 then ["interface"] else []) ++ (if c4 then ["cross_wave"] else []))
      ↔ ((c1 ∧ s = "files") ∨ (c2 ∧ s = "lines") ∨ (c3 ∧ s = "interface")
          ∨ (c4 ∧ s = "cross_wave")) := by
  split_ifs <;> simp_all

theorem insertWarning_length (tid warning : Line) :
    ∀ lines : List Line, (∃ l ∈ lines, lineMatches tid l = true) →
      (insertWarning tid warning lines).length = lines.length + 1 := by
  intro lines
  induction lines with
  | nil => rintro ⟨l, hl, _⟩; cases hl
  | cons a tl ih =>
    rintro ⟨l, hl, hm⟩
    by_cases ha : lineMatches tid a = true
    · simp [insertWarning, ha]
    · rcases List.mem_cons.mp hl with rfl | hl
      · exact absurd hm ha
      · simp only [insertWarning, ha, if_neg, Bool.false_eq_true, not_false_iff,
          List.length_cons]
        rw [ih ⟨l, hl, hm⟩]

theorem insertWarning_mem (tid warning : Line) :
    ∀ lines : List Line, ∀ l ∈ lines, l ∈ insertWarning tid warning lines := by
  intro lines
  induction lines with
  | nil => intro l hl; cases hl
  | cons a tl ih =>
    intro l hl
    by_cases ha : lineMatches tid a = true
    · simp only [insertWarning, ha, if_pos]
      rcases List.mem_cons.mp hl with rfl | hl
      · exact List.mem_cons_self _ _
      · exact List.mem_cons_of_mem _ (List.mem_cons_of_mem _ hl)
    · simp only [insertWarning, ha, if_neg, Bool.false_eq_true, not_false_iff]
      rcases List.mem_cons.mp hl with rfl | hl
      · exact List.mem_cons_self _ _
      · exact List.mem_cons_of_mem _ (ih l hl)

theorem contains_iff (l : List String) (a : String) : l.contains a = true ↔ a ∈ l := by
  simp [List.contains]

theorem scanWave_sublist (dep : Task → List String) :
    ∀ (rem : List Task) (assigned wf : List String),
      ∀ t ∈ (scanWave dep rem assigned wf).1, t ∈ rem := by
  intro rem
  induction rem with
  | nil => intro assigned wf t ht; simp [scanWave] at ht
  | cons a rest ih =>
    intro assigned wf t ht
    simp only [scanWave] at ht
    split at ht
    · exact List.mem_cons_of_mem _ (ih _ _ t ht)
    · split at ht
      · split at ht
        · exact List.mem_cons_of_mem _ (ih _ _ t ht)
        · rcases List.mem_cons.mp ht with rfl | h
          · exact List.mem_cons_self _ _
          · exact List.mem_cons_of_mem _ (ih _ _ t h)
      · exact List.mem_cons_of_mem _ (ih _ _ t ht)

theorem wavesLoop_extends (tasks : List Task) (dep : Task → List String) :
    ∀ (fuel : Nat) (assigned : List String) (waveId : Nat) (acc ws : List Wave),
      wavesLoop tasks dep fuel assigned waveId acc = some ws →
      ∃ suffix, ws = acc ++ suffix := by
  intro fuel
  induction fuel with
  | zero =>
    intro assigned waveId acc ws h
    exact absurd h (by simp [wavesLoop])
  | succ n ih =>
    intro assigned waveId acc ws h
    simp only [wavesLoop] at h
    split at h
    · split at h
      · exact ⟨[], by cases h; simp⟩
      · split at h
        · exact absurd h (by simp)
        · obtain ⟨suffix, hs⟩ := ih _ _ _ _ h
          exact ⟨_, by rw [hs, List.append_assoc]⟩
    · exact ⟨[], by cases h; simp⟩

theorem wavesLoop_pending (tasks : List Task) (dep : Task → List String) :
    ∀ (fuel : Nat) (assigned : List String) (waveId : Nat) (acc ws : List Wave),
      (∀ w ∈ acc, ∀ t ∈ w.tasks, t.completed = false) →
      wavesLoop tasks dep fuel assigned waveId acc = some ws →
      ∀ w ∈ ws, ∀ t ∈ w.tasks, t.completed = false := by
  intro fuel
  induction fuel with
  | zero =>
    intro assigned waveId acc ws _ h
    exact absurd h (by simp [wavesLoop])
  | succ n ih =>
    intro assigned waveId acc ws hacc h
    simp only [wavesLoop] at h
    split at h
    · split at h
      · cases h; exact hacc
      · split at h
        · exact absurd h (by simp)
        · refine ih _ _ _ _ ?_ h
          intro w hw t ht
          rcases List.mem_append.mp hw with hw | hw
          · exact hacc w hw t ht
          · rcases List.mem_cons.mp hw with rfl | hw
            · have hrem := scanWave_sublist dep _ _ _ t ht
              have := List.mem_filter.mp (List.mem_filter.mp hrem).1
              simpa using this.2
            · cases hw
    · cases h; exact hacc

theorem contains_eq_false (l : List String) (a : String) (h : a ∉ l) :
    l.contains a = false := by
  cases hc : l.contains a
  · rfl
  · exact absurd ((contains_iff l a).mp hc) h

theorem any_contains_eq_false (fs l : List String) (h : ∀ f ∈ fs, f ∉ l) :
    fs.any (fun f => l.contains f) = false := by
  rw [List.any_eq_false]
  intro f hf
  rw [contains_eq_false l f (h f hf)]
  simp

theorem not_shares_iff (a b : Task) :
    sharesFile a b = false ↔ ∀ f ∈ a.file_locks, f ∉ b.file_locks := by
  simp [sharesFile]

theorem scanWave_places (dep : Task → List String) (t : Task) :
    ∀ (pre : List Task) (post : List Task) (assigned wf : List String),
      (∀ d ∈ dep t, d ∈ assigned) →
      t.id ∉ assigned →
      (∀ u ∈ pre, u.id ≠ t.id) →
      (∀ u ∈ pre, sharesFile t u = false) →
      (∀ f ∈ t.file_locks, f ∉ wf) →
      t ∈ (scanWave dep (pre ++ t :: post) assigned wf).1 := by
  intro pre
  induction pre with
  | nil =>
    intro post assigned wf hdep hid _ _ hwf
    rw [List.nil_append]
    simp only [scanWave]
    rw [if_neg (by rw [contains_eq_false _ _ hid]; simp)]
    rw [if_pos (List.all_eq_true.mpr (fun d hd => (contains_iff _ _).mpr (hdep d hd)))]
    rw [if_neg (by rw [any_contains_eq_false _ _ hwf]; simp)]
    exact List.mem_cons_self _ _
  | cons u pre' ih =>
    intro post assigned wf hdep hid hpid hpconf hwf
    simp only [List.cons_append, scanWave]
    by_cases hu1 : assigned.contains u.id = true
    · rw [if_pos hu1]
      exact ih post assigned wf hdep hid
        (fun x hx => hpid x (List.mem_cons_of_mem _ hx))
        (fun x hx => hpconf x (List.mem_cons_of_mem _ hx)) hwf
    · rw [if_neg hu1]
      by_cases hu2 : (dep u).all (fun d => assigned.contains d) = true
      · rw [if_pos hu2]
        by_cases hu3 : u.file_locks.any (fun f => wf.contains f) = true
        · rw [if_pos hu3]
          exact ih post assigned wf hdep hid
            (fun x hx => hpid x (List.mem_cons_of_mem _ hx))
            (fun x hx => hpconf x (List.mem_cons_of_mem _ hx)) hwf
        · rw [if_neg hu3]
          refine List.mem_cons_of_mem _ ?_
          have hsf : ∀ f ∈ t.file_locks, f ∉ u.file_locks :=
            (not_shares_iff t u).mp (hpconf u (List.mem_cons_self _ _))
          refine ih post (u.id :: assigned) (u.file_locks ++ wf)
            (fun d hd => List.mem_cons_of_mem _ (hdep d hd)) ?_
            (fun x hx => hpid x (List.mem_cons_of_mem _ hx))
            (fun x hx => hpconf x (List.mem_cons_of_mem _ hx)) ?_
          · intro h
            rcases List.mem_cons.mp h with h | h
            · exact hpid u (List.mem_cons_self _ _) h.symm
            · exact hid h
          · intro f hf h
            rcases List.mem_append.mp h with h | h
            · exact hsf f hf h
            · exact hwf f hf h
      · rw [if_neg hu2]
        exact ih post assigned wf hdep hid
          (fun x hx => hpid x (List.mem_cons_of_mem _ hx))
          (fun x hx => hpconf x (List.mem_cons_of_mem _ hx)) hwf

theorem length_filter_lt_of_mem {α : Type} (p : α → Bool) (l : List α) (a : α)
    (ha : a ∈ l) (hp : p a = false) : (l.filter p).length < l.length := by
  induction l with
  | nil => cases ha
  | cons x xs ih =>
    rcases List.mem_cons.mp ha with rfl | ha
    · simp only [List.filter_cons, hp]
      simp only [Bool.false_eq_true, if_false, List.length_cons]
      exact Nat.lt_succ_of_le (List.length_filter_le p xs)
    · cases hx : p x
      · simp only [List.filter_cons, hx, Bool.false_eq_true, if_false, List.length_cons]
        exact Nat.lt_succ_of_lt (ih ha)
      · simp only [List.filter_cons, hx, if_true, List.length_cons]
        exact Nat.succ_lt_succ (ih ha)

/-! ### Kahn loop helper lemmas -/

theorem keys_bump (m : List (String × Int)) (k : String) (δ : Int) :
    (bump m k δ).map Prod.fst = m.map Prod.fst := by
  simp only [bump, List.map_map]
  congr 1
  funext p
  show Prod.fst (if p.1 == k then (p.1, p.2 + δ) else p) = p.1
  split
  · rfl
  · rfl

theorem degOf_nil (b : String) : degOf [] b = 0 := rfl

theorem degOf_cons (p : String × Int) (rest : List (String × Int)) (b : String) :
    degOf (p :: rest) b = if p.1 = b then p.2 else degOf rest b := by
  by_cases h : p.1 = b
  · rw [degOf, List.find?_cons_of_pos _ (by simp [h]), if_pos h]
    rfl
  · rw [degOf, List.find?_cons_of_neg _ (by simp [h]), if_neg h]
    rfl

theorem degOf_bump (m : List (String × Int)) (k b : String) (δ : Int)
    (hb : b ∈ m.map Prod.fst) :
    degOf (bump m k δ) b = degOf m b + (if b = k then δ else 0) := by
  induction m with
  | nil => cases hb
  | cons p rest ih =>
    simp only [bump, List.map_cons]
    rw [degOf_cons, degOf_cons]
    have hfst : ((if p.1 == k then (p.1, p.2 + δ) else p) : String × Int).1 = p.1 := by
      by_cases h : (p.1 == k) = true <;> simp [h]
    rw [hfst]
    by_cases hpb : p.1 = b
    · rw [if_pos hpb, if_pos hpb]
      by_cases hbk : b = k
      · have ht : (p.1 == k) = true := by simp [hpb, hbk]
        rw [if_pos hbk, ht]
        simp
      · have ht : (p.1 == k) = false := by simp [hpb, hbk]
        rw [if_neg hbk, ht]
        simp
    · rw [if_neg hpb, if_neg hpb]
      have hb' : b ∈ rest.map Prod.fst := by
        rw [List.map_cons] at hb
        rcases List.mem_cons.mp hb with h | h
        · exact absurd h.symm hpb
        · exact h
      rw [← bump]
      exact ih hb'

theorem dec_keys : ∀ (L : List String) (m : List (String × Int)),
    (decrementTargets m L).1.map Prod.fst = m.map Prod.fst := by
  intro L
  induction L with
  | nil => intro m; rfl
  | cons d rest ih =>
    intro m
    simp only [decrementTargets]
    rw [ih, keys_bump]

theorem dec_deg : ∀ (L : List String) (m : List (String × Int)) (b : String),
    b ∈ m.map Prod.fst →
    degOf (decrementTargets m L).1 b = degOf m b - (L.count b : Int) := by
  intro L
  induction L with
  | nil => intro m b _; simp [decrementTargets]
  | cons d rest ih =>
    intro m b hb
    simp only [decrementTargets]
    rw [ih _ b (by rw [keys_bump]; exact hb), degOf_bump m d b (-1) hb,
      List.count_cons]
    by_cases hbd : b = d
    · rw [if_pos hbd, if_pos (by simp [hbd])]
      push_cast
      omega
    · rw [if_neg hbd, if_neg (by simp; exact fun h => hbd h.symm)]
      push_cast
      omega

theorem dec_queue_sub : ∀ (L : List String) (m : List (String × Int)),
    ∀ d ∈ (decrementTargets m L).2, d ∈ L := by
  intro L
  induction L with
  | nil => intro m d hd; cases hd
  | cons x rest ih =>
    intro m d hd
    simp only [decrementTargets] at hd
    split at hd
    · rcases List.mem_cons.mp hd with rfl | hd
      · exact List.mem_cons_self _ _
      · exact List.mem_cons_of_mem _ (ih _ d hd)
    · exact List.mem_cons_of_mem _ (ih _ d hd)

theorem dec_queue_count : ∀ (L : List String) (m : List (String × Int)) (d : String),
    (∀ x ∈ L, x ∈ m.map Prod.fst) → d ∈ m.map Prod.fst →
    (decrementTargets m L).2.count d =
      (if 1 ≤ degOf m d ∧ degOf m d ≤ (L.count d : Int) then 1 else 0) := by
  intro L
  induction L with
  | nil =>
    intro m d _ _
    simp only [decrementTargets, List.count_nil]
    rw [if_neg]
    rintro ⟨h1, h2⟩
    simp at h2
    omega
  | cons x rest ih =>
    intro m d hL hd
    have hx : x ∈ m.map Prod.fst := hL x (List.mem_cons_self _ _)
    have hd₁ : d ∈ (bump m x (-1)).map Prod.fst := by rw [keys_bump]; exact hd
    have hL₁ : ∀ y ∈ rest, y ∈ (bump m x (-1)).map Prod.fst := by
      intro y hy
      rw [keys_bump]
      exact hL y (List.mem_cons_of_mem _ hy)
    have hih := ih (bump m x (-1)) d hL₁ hd₁
    have hdx : degOf (bump m x (-1)) x = degOf m x - 1 := by
      rw [degOf_bump m x x (-1) hx, if_pos rfl]
      omega
    have hdd : degOf (bump m x (-1)) d = degOf m d + (if d = x then (-1) else 0) :=
      degOf_bump m x d (-1) hd
    simp only [decrementTargets]
    by_cases hxd : d = x
    · subst hxd
      have hDD : degOf (bump m d (-1)) d = degOf m d - 1 := hdx
      rw [hDD] at hih
      by_cases hz : degOf m d - 1 = 0
      · rw [if_pos (by rw [hDD]; simp [hz])]
        rw [List.count_cons_self, hih, List.count_cons_self]
        rw [if_neg (by intro hc; omega)]
        rw [if_pos (by push_cast; omega)]
      · rw [if_neg (by rw [hDD]; simpa using hz)]
        rw [hih, List.count_cons_self]
        by_cases hc : (1 : Int) ≤ degOf m d - 1 ∧
            degOf m d - 1 ≤ (rest.count d : Int)
        · rw [if_pos hc, if_pos (by push_cast at hc ⊢; omega)]
        · rw [if_neg hc, if_neg (by push_cast at hc ⊢; omega)]
    · have hDD : degOf (bump m x (-1)) d = degOf m d := by
        rw [hdd, if_neg hxd]
        omega
      rw [hDD] at hih
      have hbne : (x == d) = false := by
        simp
        exact fun h => hxd h.symm
      have hcnt : (x :: rest).count d = rest.count d := by
        rw [List.count_cons, hbne]
        simp
      rw [hcnt]
      split
      · rw [List.count_cons, hbne]
        simp only [Bool.false_eq_true, if_false, Nat.add_zero]
        rw [hih]
      · rw [hih]

theorem dec_queue_mem (L : List String) (m : List (String × Int)) (d : String)
    (hL : ∀ x ∈ L, x ∈ m.map Prod.fst) (hd : d ∈ m.map Prod.fst) :
    d ∈ (decrementTargets m L).2 ↔
      (1 ≤ degOf m d ∧ degOf m d ≤ (L.count d : Int)) := by
  rw [← List.count_pos_iff, dec_queue_count L m d hL hd]
  split
  · next h => simpa using h
  · next h => simpa using h

theorem dec_queue_nodup (L : List String) (m : List (String × Int))
    (hL : ∀ x ∈ L, x ∈ m.map Prod.fst) : (decrementTargets m L).2.Nodup := by
  rw [List.nodup_iff_count_le_one]
  intro d
  by_cases hd : d ∈ m.map Prod.fst
  · rw [dec_queue_count L m d hL hd]
    split <;> omega
  · have hnot : d ∉ (decrementTargets m L).2 :=
      fun h => hd (hL d (dec_queue_sub L m d h))
    rw [List.count_eq_zero.mpr hnot]
    omega

theorem length_filter_or (l : List String) (p q : String → Bool)
    (h : ∀ x ∈ l, ¬(p x = true ∧ q x = true)) :
    (l.filter (fun x => p x || q x)).length
      = (l.filter p).length + (l.filter q).length := by
  induction l with
  | nil => rfl
  | cons c l' ih =>
    have ih' := ih (fun x hx => h x (List.mem_cons_of_mem _ hx))
    cases hp : p c <;> cases hq : q c
    · simp only [List.filter_cons, hp, hq, Bool.or_false, Bool.false_eq_true,
        if_false]
      exact ih'
    · simp only [List.filter_cons, hp, hq, Bool.false_or, Bool.false_eq_true,
        if_false, if_true, List.length_cons]
      omega
    · simp only [List.filter_cons, hp, hq, Bool.or_false, Bool.false_eq_true,
        if_false, if_true, List.length_cons]
      omega
    · exact absurd ⟨hp, hq⟩ (h c (List.mem_cons_self _ _))

theorem sum_count_eq_length_filter : ∀ (Q l : List String), Q.Nodup →
    (Q.map (fun a => l.count a)).sum
      = (l.filter (fun x => Q.contains x)).length := by
  intro Q
  induction Q with
  | nil =>
    intro l _
    simp [List.contains]
  | cons q Q' ih =>
    intro l hnd
    obtain ⟨hq, hnd'⟩ := List.nodup_cons.mp hnd
    simp only [List.map_cons, List.sum_cons]
    rw [ih l hnd']
    have hdisj : ∀ x ∈ l, ¬((x == q) = true ∧ Q'.contains x = true) := by
      rintro x _ ⟨h1, h2⟩
      rw [beq_iff_eq] at h1
      subst h1
      exact hq ((contains_iff _ _).mp h2)
    have hsplit := length_filter_or l (fun x => x == q) (fun x => Q'.contains x) hdisj
    have hcont : (fun x => (q :: Q').contains x)
        = (fun x => (x == q) || Q'.contains x) := by
      funext x
      show (q :: Q').elem x = ((x == q) || Q'.contains x)
      rw [List.elem_cons]
      cases h : x == q
      · simp [h, List.contains]
      · simp [h, List.contains]
    rw [hcont, hsplit, List.count_eq_countP, List.countP_eq_length_filter]

theorem count_map_const (l : List String) (b c : String) :
    (l.map (fun _ => c)).count b = if b = c then l.length else 0 := by
  rw [List.map_const', List.count_replicate]
  by_cases h : b = c
  · rw [if_pos (by simp [h]), if_pos h]
  · rw [if_neg (by simp; exact fun hh => h hh.symm), if_neg h]

theorem sum_ite_eq_of_nodup (scope : List String) (hnd : scope.Nodup)
    (b : String) (hb : b ∈ scope) (X : String → Nat) :
    (scope.map (fun c => if b = c then X c else 0)).sum = X b := by
  induction scope with
  | nil => cases hb
  | cons q Q ih =>
    obtain ⟨hq, hnd'⟩ := List.nodup_cons.mp hnd
    rcases List.mem_cons.mp hb with rfl | hb'
    · simp only [List.map_cons, List.sum_cons]
      have hz : (Q.map (fun c => if b = c then X c else 0)).sum = 0 := by
        apply List.sum_eq_zero
        intro x hx
        obtain ⟨c, hc, rfl⟩ := List.mem_map.mp hx
        rw [if_neg]
        intro h
        rw [h] at hq
        exact hq hc
      rw [hz]
      simp
    · simp only [List.map_cons, List.sum_cons]
      rw [if_neg (by intro h; rw [h] at hb'; exact hq hb'), ih hnd' hb']
      omega

theorem count_adj (g : DBTGraph) (scope : List String) (hnd : scope.Nodup)
    (a b : String) (hb : b ∈ scope) :
    (adjacencyOf g scope a).count b = (upstreamInScope g scope b).count a := by
  rw [adjacencyOf, List.count_flatMap]
  simp only [Function.comp_def]
  have hcongr : scope.map (fun c =>
      (((upstreamInScope g scope c).filter (fun u => u == a)).map
        (fun _ => c)).count b)
      = scope.map (fun c =>
        if b = c then ((upstreamInScope g scope c).filter
          (fun u => u == a)).length else 0) :=
    List.map_congr_left (fun c _ => count_map_const _ b c)
  rw [hcongr, sum_ite_eq_of_nodup scope hnd b hb, List.count_eq_countP,
    List.countP_eq_length_filter]

theorem count_queue_flatMap (g : DBTGraph) (scope : List String)
    (hnd : scope.Nodup) (queue : List String) (hq : queue.Nodup)
    (b : String) (hb : b ∈ scope) :
    (queue.flatMap (adjacencyOf g scope)).count b
      = ((upstreamInScope g scope b).filter (fun x => queue.contains x)).length := by
  rw [List.count_flatMap]
  simp only [Function.comp_def]
  have : queue.map (fun a => (adjacencyOf g scope a).count b)
      = queue.map (fun a => (upstreamInScope g scope b).count a) :=
    List.map_congr_left (fun a _ => count_adj g scope hnd a b hb)
  rw [this, sum_count_eq_length_filter queue _ hq]

theorem length_filter_split (l D Q : List String)
    (hdisj : ∀ x ∈ Q, x ∉ D) :
    (l.filter (fun a => !(D.contains a))).length
      = (l.filter (fun a => !((D ++ Q).contains a))).length
        + (l.filter (fun a => Q.contains a)).length := by
  induction l with
  | nil => rfl
  | cons c l' ih =>
    by_cases hcD : c ∈ D
    · have e1 : D.contains c = true := (contains_iff _ _).mpr hcD
      have e2 : (D ++ Q).contains c = true :=
        (contains_iff _ _).mpr (List.mem_append.mpr (Or.inl hcD))
      have e3 : Q.contains c = false :=
        contains_eq_false _ _ (fun hc => hdisj c hc hcD)
      simp only [List.filter_cons, e1, e2, e3, Bool.not_true,
        Bool.false_eq_true, if_false]
      exact ih
    · by_cases hcQ : c ∈ Q
      · have e1 : D.contains c = false := contains_eq_false _ _ hcD
        have e2 : (D ++ Q).contains c = true :=
          (contains_iff _ _).mpr (List.mem_append.mpr (Or.inr hcQ))
        have e3 : Q.contains c = true := (contains_iff _ _).mpr hcQ
        simp only [List.filter_cons, e1, e2, e3, Bool.not_false, Bool.not_true,
          if_true, Bool.false_eq_true, if_false, List.length_cons]
        omega
      · have e1 : D.contains c = false := contains_eq_false _ _ hcD
        have e2 : (D ++ Q).contains c = false := by
          refine contains_eq_false _ _ (fun hc => ?_)
          rcases List.mem_append.mp hc with h | h
          · exact hcD h
          · exact hcQ h
        have e3 : Q.contains c = false := contains_eq_false _ _ hcQ
        simp only [List.filter_cons, e1, e2, e3, Bool.not_false, if_true,
          Bool.false_eq_true, if_false, List.length_cons]
        omega

theorem kahnStep (g : DBTGraph) (scope : List String) (hscope : scope.Nodup)
    (deg : List (String × Int)) (queue : List String) (wave : Nat)
    (acc : List (String × Nat))
    (inv : KahnInv g scope deg queue wave acc) :
    KahnInv g scope
      (decrementTargets deg (queue.flatMap (adjacencyOf g scope))).1
      (decrementTargets deg (queue.flatMap (adjacencyOf g scope))).2
      (wave + 1) (acc ++ queue.map (fun n => (n, wave))) := by
  have hLscope : ∀ x ∈ queue.flatMap (adjacencyOf g scope), x ∈ scope := by
    intro x hx
    obtain ⟨a, _, hxa⟩ := List.mem_flatMap.mp hx
    obtain ⟨b, hb, hxb⟩ := List.mem_flatMap.mp hxa
    obtain ⟨_, _, rfl⟩ := List.mem_map.mp hxb
    exact hb
  have hLkeys : ∀ x ∈ queue.flatMap (adjacencyOf g scope),
      x ∈ deg.map Prod.fst := by
    intro x hx
    rw [inv.keys_eq]
    exact hLscope x hx
  have hkeys' : (acc ++ queue.map (fun n => (n, wave))).map Prod.fst
      = acc.map Prod.fst ++ queue := by
    rw [List.map_append, List.map_map]
    simp [Function.comp_def]
  have hdegnn : ∀ b ∈ scope, 0 ≤ degOf deg b := by
    intro b hb
    rw [inv.deg_eq b hb]
    exact Int.natCast_nonneg _
  -- deg of an already-assigned name is 0 (all its predecessors are assigned)
  have hDzero : ∀ b, b ∈ acc.map Prod.fst → degOf deg b = 0 := by
    intro b hbD
    obtain ⟨p, hp, hfst⟩ := List.mem_map.mp hbD
    have hbscope : b ∈ scope := by
      rw [← hfst]
      exact (inv.acc_scope p hp).1
    have hall : ∀ a ∈ upstreamInScope g scope b, a ∈ acc.map Prod.fst := by
      intro a ha
      obtain ⟨wa, hwa, _⟩ := inv.acc_pred p hp a (by rw [hfst]; exact ⟨hbscope, ha⟩)
      exact List.mem_map.mpr ⟨(a, wa), hwa, rfl⟩
    have hnil : ((upstreamInScope g scope b).filter
        (fun a => !((acc.map Prod.fst).contains a))) = [] := by
      rw [List.filter_eq_nil_iff]
      intro a ha
      rw [(contains_iff _ _).mpr (hall a ha)]
      simp
    rw [inv.deg_eq b hbscope, hnil]
    rfl
  -- degree equation for the new state
  have hdeg' : ∀ b ∈ scope,
      degOf (decrementTargets deg (queue.flatMap (adjacencyOf g scope))).1 b =
        (((upstreamInScope g scope b).filter
          (fun a => !(((acc.map Prod.fst) ++ queue).contains a))).length : Int) := by
    intro b hb
    have hbkeys : b ∈ deg.map Prod.fst := by rw [inv.keys_eq]; exact hb
    have hsplit := length_filter_split (upstreamInScope g scope b)
      (acc.map Prod.fst) queue (fun x hx => inv.q_unassigned x hx)
    have hcnt := count_queue_flatMap g scope hscope queue inv.q_nodup b hb
    rw [dec_deg _ _ b hbkeys, inv.deg_eq b hb, hcnt]
    omega
  refine
    { keys_eq := by rw [dec_keys]; exact inv.keys_eq
      one_le_wave := Nat.le_succ_of_le inv.one_le_wave
      acc_nodup := ?_
      acc_scope := ?_
      q_nodup := dec_queue_nodup _ _ hLkeys
      q_scope := fun n hn => hLscope n (dec_queue_sub _ _ _ hn)
      q_unassigned := ?_
      deg_eq := by
        intro b hb
        rw [hkeys'] at *
        exact hdeg' b hb
      q_zero := ?_
      zero_in_q := ?_
      acc_pred := ?_ }
  · -- acc_nodup
    rw [hkeys']
    exact List.Nodup.append inv.acc_nodup inv.q_nodup
      (fun a haD haq => inv.q_unassigned a haq haD)
  · -- acc_scope
    intro p hp
    rcases List.mem_append.mp hp with hp | hp
    · obtain ⟨h1, h2, h3⟩ := inv.acc_scope p hp
      exact ⟨h1, h2, Nat.lt_succ_of_lt h3⟩
    · obtain ⟨n, hn, rfl⟩ := List.mem_map.mp hp
      exact ⟨inv.q_scope n hn, inv.one_le_wave, Nat.lt_succ_self wave⟩
  · -- q_unassigned
    intro n hn hmem
    have hnscope : n ∈ scope := hLscope n (dec_queue_sub _ _ _ hn)
    have hnkeys : n ∈ deg.map Prod.fst := by rw [inv.keys_eq]; exact hnscope
    obtain ⟨h1, _⟩ := (dec_queue_mem _ _ n hLkeys hnkeys).mp hn
    rw [hkeys'] at hmem
    rcases List.mem_append.mp hmem with hD | hq
    · have := hDzero n hD
      omega
    · have := inv.q_zero n hq
      omega
  · -- q_zero
    intro n hn
    have hnscope : n ∈ scope := hLscope n (dec_queue_sub _ _ _ hn)
    have hnkeys : n ∈ deg.map Prod.fst := by rw [inv.keys_eq]; exact hnscope
    obtain ⟨h1, h2⟩ := (dec_queue_mem _ _ n hLkeys hnkeys).mp hn
    have hlow : 0 ≤ degOf
        (decrementTargets deg (queue.flatMap (adjacencyOf g scope))).1 n := by
      rw [hdeg' n hnscope]
      exact Int.natCast_nonneg _
    have hval := dec_deg (queue.flatMap (adjacencyOf g scope)) deg n hnkeys
    omega
  · -- zero_in_q
    intro b hb h0
    by_cases hbk : b ∈ (acc ++ queue.map (fun n => (n, wave))).map Prod.fst
    · exact Or.inl hbk
    · rw [hkeys'] at hbk
      have hbD : b ∉ acc.map Prod.fst := fun h =>
        hbk (List.mem_append.mpr (Or.inl h))
      have hbq : b ∉ queue := fun h => hbk (List.mem_append.mpr (Or.inr h))
      have hdb : degOf deg b ≠ 0 := by
        intro hz
        rcases inv.zero_in_q b hb hz with h | h
        · exact hbD h
        · exact hbq h
      have hnn := hdegnn b hb
      have hbkeys : b ∈ deg.map Prod.fst := by rw [inv.keys_eq]; exact hb
      have hval := dec_deg (queue.flatMap (adjacencyOf g scope)) deg b hbkeys
      refine Or.inr ((dec_queue_mem _ _ b hLkeys hbkeys).mpr ⟨by omega, by omega⟩)
  · -- acc_pred
    intro p hp a hedge
    rcases List.mem_append.mp hp with hp | hp
    · obtain ⟨wa, hwa, hlt⟩ := inv.acc_pred p hp a hedge
      exact ⟨wa, List.mem_append.mpr (Or.inl hwa), hlt⟩
    · obtain ⟨n, hn, rfl⟩ := List.mem_map.mp hp
      have hz := inv.q_zero n hn
      have hnscope : n ∈ scope := inv.q_scope n hn
      rw [inv.deg_eq n hnscope] at hz
      have hnil : ((upstreamInScope g scope n).filter
          (fun a => !((acc.map Prod.fst).contains a))) = [] := by
        have : ((upstreamInScope g scope n).filter
            (fun a => !((acc.map Prod.fst).contains a))).length = 0 := by
          omega
        exact List.length_eq_zero.mp this
      have haD : a ∈ acc.map Prod.fst := by
        by_contra haD
        have hmem : a ∈ (upstreamInScope g scope n).filter
            (fun a => !((acc.map Prod.fst).contains a)) :=
          List.mem_filter.mpr ⟨hedge.2, by rw [contains_eq_false _ _ haD]; rfl⟩
        rw [hnil] at hmem
        cases hmem
      obtain ⟨⟨a2, wa⟩, hqa, hfst⟩ := List.mem_map.mp haD
      cases hfst
      refine ⟨wa, List.mem_append.mpr (Or.inl hqa), ?_⟩
      exact (inv.acc_scope _ hqa).2.2

theorem mem_upstreamInScope (g : DBTGraph) (scope : List String) (a b : String)
    (h : a ∈ upstreamInScope g scope b) : a ∈ scope := by
  rw [upstreamInScope] at h
  cases hl : g.lookup b with
  | none => rw [hl] at h; cases h
  | some node =>
    rw [hl] at h
    have := (List.mem_filter.mp h).2
    exact (contains_iff _ _).mp this

theorem waveOf_eq_of_mem (l : List (String × Nat))
    (hnd : (l.map Prod.fst).Nodup) (a : String) (w : Nat) (h : (a, w) ∈ l) :
    waveOf l a = some w := by
  induction l with
  | nil => cases h
  | cons p rest ih =>
    rw [List.map_cons] at hnd
    obtain ⟨hp1, hnd'⟩ := List.nodup_cons.mp hnd
    rcases List.mem_cons.mp h with rfl | h
    · rw [waveOf, List.find?_cons_of_pos _ (by simp)]
      rfl
    · have hne : p.1 ≠ a := by
        intro he
        exact hp1 (List.mem_map.mpr ⟨(a, w), h, he.symm⟩)
      rw [waveOf, List.find?_cons_of_neg _ (by simp [hne])]
      exact ih hnd' h

theorem degOf_init (v : String → Int) :
    ∀ (scope : List String) (b : String), b ∈ scope →
      degOf (scope.map (fun n => (n, v n))) b = v b := by
  intro scope
  induction scope with
  | nil => intro b h; cases h
  | cons q Q ih =>
    intro b hb
    rw [List.map_cons, degOf_cons]
    by_cases h : q = b
    · rw [if_pos h, h]
    · rw [if_neg h]
      refine ih b ?_
      rcases List.mem_cons.mp hb with h' | h'
      · exact absurd h'.symm h
      · exact h'

theorem kahnInit (names : List String) (g : DBTGraph) :
    KahnInv g names.dedup
      (names.dedup.map (fun n =>
        (n, ((upstreamInScope g names.dedup n).length : Int))))
      (names.dedup.filter (fun n =>
        (upstreamInScope g names.dedup n).length == 0)) 1 [] := by
  have hfilter_all : ∀ b : String,
      ((upstreamInScope g names.dedup b).filter
        (fun a => !(([] : List (String × Nat)).map Prod.fst).contains a))
      = upstreamInScope g names.dedup b := by
    intro b
    apply List.filter_eq_self.mpr
    intro a _
    rfl
  refine
    { keys_eq := by simp [Function.comp_def]
      one_le_wave := le_refl 1
      acc_nodup := List.nodup_nil
      acc_scope := by intro p hp; cases hp
      q_nodup := (List.nodup_dedup names).filter _
      q_scope := fun n hn => (List.mem_filter.mp hn).1
      q_unassigned := by intro n _ h; cases h
      deg_eq := ?_
      q_zero := ?_
      zero_in_q := ?_
      acc_pred := by intro p hp; cases hp }
  · intro b hb
    rw [degOf_init _ _ b hb, hfilter_all b]
  · intro n hn
    have h2 := (List.mem_filter.mp hn).2
    have h1 := (List.mem_filter.mp hn).1
    rw [degOf_init _ _ n h1]
    simp only [beq_iff_eq] at h2
    rw [h2]
    rfl
  · intro b hb h0
    rw [degOf_init _ _ b hb] at h0
    refine Or.inr (List.mem_filter.mpr ⟨hb, ?_⟩)
    simp only [beq_iff_eq]
    omega

theorem kahnLoop_spec (g : DBTGraph) (scope : List String)
    (hscope : scope.Nodup) :
    ∀ (fuel : Nat) (deg : List (String × Int)) (queue : List String)
      (wave : Nat) (acc : List (String × Nat)),
      KahnInv g scope deg queue wave acc →
      scope.length < fuel + (acc.map Prod.fst).length →
      (∃ rest, kahnLoop (adjacencyOf g scope) fuel deg queue wave acc
          = acc ++ rest)
      ∧ ((kahnLoop (adjacencyOf g scope) fuel deg queue wave acc).map
          Prod.fst).Nodup
      ∧ (∀ p ∈ kahnLoop (adjacencyOf g scope) fuel deg queue wave acc,
          p.1 ∈ scope ∧ 1 ≤ p.2)
      ∧ (∀ p ∈ kahnLoop (adjacencyOf g scope) fuel deg queue wave acc,
          ∀ a, EdgeIn g scope a p.1 →
            ∃ wa, (a, wa) ∈ kahnLoop (adjacencyOf g scope) fuel deg queue wave acc
              ∧ wa < p.2)
      ∧ (∀ b ∈ scope,
          b ∉ (kahnLoop (adjacencyOf g scope) fuel deg queue wave acc).map
            Prod.fst →
          ∃ a, EdgeIn g scope a b
            ∧ a ∉ (kahnLoop (adjacencyOf g scope) fuel deg queue wave acc).map
              Prod.fst)
      ∧ (∀ n ∈ queue,
          (n, wave) ∈ kahnLoop (adjacencyOf g scope) fuel deg queue wave acc) := by
  intro fuel
  induction fuel with
  | zero =>
    intro deg queue wave acc inv hbound
    have hsub : ∀ x ∈ acc.map Prod.fst, x ∈ scope := by
      intro x hx
      obtain ⟨p, hp, rfl⟩ := List.mem_map.mp hx
      exact (inv.acc_scope p hp).1
    have hle := (inv.acc_nodup.subperm hsub).length_le
    omega
  | succ fuel ih =>
    intro deg queue wave acc inv hbound
    by_cases hq : queue.isEmpty = true
    · have hqe : queue = [] := List.isEmpty_iff.mp hq
      have hres : kahnLoop (adjacencyOf g scope) (fuel + 1) deg queue wave acc
          = acc := by
        simp only [kahnLoop]
        rw [if_pos hq]
      rw [hres]
      refine ⟨⟨[], (List.append_nil acc).symm⟩, inv.acc_nodup,
        fun p hp => ⟨(inv.acc_scope p hp).1, (inv.acc_scope p hp).2.1⟩,
        inv.acc_pred, ?_, by intro n hn; rw [hqe] at hn; cases hn⟩
      intro b hb hbk
      have hdb : degOf deg b ≠ 0 := by
        intro hz
        rcases inv.zero_in_q b hb hz with h | h
        · exact hbk h
        · rw [hqe] at h; cases h
      rw [inv.deg_eq b hb] at hdb
      have hlen : ((upstreamInScope g scope b).filter
          (fun a => !((acc.map Prod.fst).contains a))).length ≠ 0 := by
        intro h
        rw [h] at hdb
        exact hdb rfl
      have hne_nil : ((upstreamInScope g scope b).filter
          (fun a => !((acc.map Prod.fst).contains a))) ≠ [] := by
        intro h
        apply hlen
        rw [h]
        rfl
      obtain ⟨a, ha⟩ := List.exists_mem_of_ne_nil _ hne_nil
      have := List.mem_filter.mp ha
      refine ⟨a, ⟨hb, this.1⟩, ?_⟩
      intro haD
      rw [(contains_iff _ _).mpr haD] at this
      exact absurd this.2 (by simp)
    · have hne : queue ≠ [] := fun h => hq (by rw [h]; rfl)
      have hunfold : kahnLoop (adjacencyOf g scope) (fuel + 1) deg queue wave acc
          = kahnLoop (adjacencyOf g scope) fuel
              (decrementTargets deg (queue.flatMap (adjacencyOf g scope))).1
              (decrementTargets deg (queue.flatMap (adjacencyOf g scope))).2
              (wave + 1) (acc ++ queue.map (fun n => (n, wave))) := by
        simp only [kahnLoop]
        rw [if_neg hq]
      have inv' := kahnStep g scope hscope deg queue wave acc inv
      have hkeys' : ((acc ++ queue.map (fun n => (n, wave))).map Prod.fst).length
          = (acc.map Prod.fst).length + queue.length := by
        simp
      have hqlen : 1 ≤ queue.length := by
        cases queue with
        | nil => exact absurd rfl hne
        | cons _ _ => simp
      have hbound' : scope.length < fuel
          + (((acc ++ queue.map (fun n => (n, wave))).map Prod.fst).length) := by
        rw [hkeys']
        omega
      obtain ⟨⟨rest, hrest⟩, h2, h3, h4, h5, _⟩ :=
        ih _ _ (wave + 1) _ inv' hbound'
      rw [hunfold]
      refine ⟨⟨queue.map (fun n => (n, wave)) ++ rest, by
        rw [hrest, List.append_assoc]⟩, h2, h3, h4, h5, ?_⟩
      intro n hn
      rw [hrest]
      exact List.mem_append.mpr (Or.inl (List.mem_append.mpr
        (Or.inr (List.mem_map.mpr ⟨n, hn, rfl⟩))))

theorem no_closed_walk_of_rank (R : String → String → Prop) (ρ : String → Nat)
    (h : ∀ a b, R a b → ρ a < ρ b) : ¬ HasClosedWalk R := by
  rintro ⟨f, n, hn, hclose, hedges⟩
  have hmono : ∀ k, k ≤ n → ρ (f 0) ≤ ρ (f k) := by
    intro k
    induction k with
    | zero => intro _; exact le_refl _
    | succ k ihk =>
      intro hk1
      have h1 := ihk (by omega)
      have h2 := h _ _ (hedges k (by omega))
      omega
  have h3 := hmono (n - 1) (by omega)
  have h2 := h _ _ (hedges (n - 1) (by omega))
  rw [show (n - 1) + 1 = n from by omega, hclose] at h2
  omega

theorem c5_lone_isolated : ∀ m, ¬ EdgeIn c5G c5Names.dedup m "lone_model"
    ∧ ¬ EdgeIn c5G c5Names.dedup "lone_model" m := by
  intro m
  constructor
  · rintro ⟨_, hm⟩
    rw [show upstreamInScope c5G c5Names.dedup "lone_model" = [] from rfl] at hm
    cases hm
  · rintro ⟨hm, hup⟩
    have hforall : ∀ x ∈ c5Names.dedup,
        "lone_model" ∉ upstreamInScope c5G c5Names.dedup x := by decide
    exact hforall m hm hup

theorem c5_acyclic : ¬ HasClosedWalk (EdgeIn c5G c5Names.dedup) := by
  refine no_closed_walk_of_rank _
    (fun s => if s == "fct_orders" then 1 else 0) ?_
  rintro a b ⟨hb, ha⟩
  rw [show c5Names.dedup
    = ["stg_orders", "dim_customers", "fct_orders", "lone_model"] from rfl] at hb
  simp only [List.mem_cons, List.not_mem_nil, or_false] at hb
  rcases hb with rfl | rfl | rfl | rfl
  · rw [show upstreamInScope c5G c5Names.dedup "stg_orders" = [] from rfl] at ha
    cases ha
  · rw [show upstreamInScope c5G c5Names.dedup "dim_customers" = [] from rfl] at ha
    cases ha
  · rw [show upstreamInScope c5G c5Names.dedup "fct_orders"
      = ["stg_orders", "dim_customers"] from rfl] at ha
    rcases List.mem_cons.mp ha with rfl | ha
    · decide
    · rcases List.mem_cons.mp ha with rfl | ha
      · decide
      · cases ha
  · rw [show upstreamInScope c5G c5Names.dedup "lone_model" = [] from rfl] at ha
    cases ha



/-! ### Cycle detector helper lemmas -/

theorem neighLoop_nil (g : DBTGraph) (visit : String → DfsState →
    Option (Option (List String) × DfsState)) (u : String) (st : DfsState) :
    neighLoop g visit u [] st = some (none, st) := rfl

theorem neighLoop_cons (g : DBTGraph) (visit : String → DfsState →
    Option (Option (List String) × DfsState)) (u v : String)
    (vs : List String) (st : DfsState) :
    neighLoop g visit u (v :: vs) st =
      if g.keys.contains v = false then neighLoop g visit u vs st
      else if st.gray.contains v then
        some (some (buildCycle st.parent u v), st)
      else if st.black.contains v then neighLoop g visit u vs st
      else
        match visit v st with
        | none => none
        | some (some cyc, st2) => some (some cyc, st2)
        | some (none, st2) => neighLoop g visit u vs st2 := rfl

theorem dfsVisit_succ (g : DBTGraph) (fuel : Nat) (u : String)
    (opar : Option String) (st : DfsState) :
    dfsVisit g (fuel + 1) u opar st =
      match neighLoop g (fun v s => dfsVisit g fuel v (some u) s) u
          (downstreamOf g u)
          ⟨u :: st.gray, st.black,
            match opar with
            | none => st.parent
            | some c => (u, c) :: st.parent⟩ with
      | none => none
      | some (some cyc, st2) => some (some cyc, st2)
      | some (none, st2) =>
        some (none, ⟨st2.gray.erase u, st2.black ++ [u], st2.parent⟩) := rfl

theorem detectLoop_cons (g : DBTGraph) (u : String) (rest : List String)
    (st : DfsState) :
    detectLoop g (u :: rest) st =
      if st.gray.contains u || st.black.contains u then detectLoop g rest st
      else
        match dfsVisit g (dfsFuel g) u none st with
        | none => none
        | some (some cyc, _) => some cyc
        | some (none, st2) => detectLoop g rest st2 := rfl

theorem climb_succ (parent : List (String × String)) (fuel : Nat)
    (v current : String) :
    climb parent (fuel + 1) v current =
      match parentOf parent current with
      | none => []
      | some p => if p = v then [] else p :: climb parent fuel v p := rfl

theorem parentOf_cons_self (parent : List (String × String)) (u c : String) :
    parentOf ((u, c) :: parent) u = some c := by
  simp [parentOf]

theorem parentOf_cons_ne (parent : List (String × String)) (u c x : String)
    (h : x ≠ u) : parentOf ((u, c) :: parent) x = parentOf parent x := by
  unfold parentOf
  rw [List.find?_cons_of_neg _ (by simp; exact fun hh => h hh.symm)]

theorem parentOf_eq_none (parent : List (String × String)) (u : String)
    (h : ∀ pr ∈ parent, pr.1 ≠ u) : parentOf parent u = none := by
  unfold parentOf
  rw [List.find?_eq_none.mpr]
  · rfl
  · intro pr hpr
    simpa using h pr hpr

theorem parentOf_some_mem (parent : List (String × String)) (u c : String)
    (h : parentOf parent u = some c) : (u, c) ∈ parent := by
  unfold parentOf at h
  rcases ho : parent.find? (fun p => p.1 == u) with _ | pr
  · rw [ho] at h; cases h
  · rw [ho] at h
    have h1 : pr.2 = c := by simpa using h
    have h2 : pr.1 = u := by
      have := List.find?_some ho
      simpa using this
    have h3 := List.mem_of_find?_eq_some ho
    have : pr = (u, c) := by
      cases pr; simp_all
    rwa [this] at h3

theorem parentOf_some_key (parent : List (String × String)) (u c : String)
    (h : parentOf parent u = some c) : u ∈ parent.map Prod.fst := by
  have := parentOf_some_mem parent u c h
  exact List.mem_map.mpr ⟨(u, c), this, rfl⟩

theorem lookup_of_mem_keys (g : DBTGraph) (u : String) (h : u ∈ g.keys) :
    ∃ m, g.lookup u = some m := by
  rcases List.mem_map.mp h with ⟨pr, hpr, rfl⟩
  have : (g.nodes.find? (fun p => p.1 == pr.1)).isSome := by
    rw [List.find?_isSome]
    exact ⟨pr, hpr, by simp⟩
  rcases Option.isSome_iff_exists.mp this with ⟨q, hq⟩
  exact ⟨q.2, by simp [DBTGraph.lookup, hq]⟩

theorem downstreamOf_eq (g : DBTGraph) (u : String) (m : DBTModel)
    (h : g.lookup u = some m) : downstreamOf g u = m.downstream := by
  simp [downstreamOf, h]

theorem edgeD_iff (g : DBTGraph) (u v : String) :
    EdgeD g u v ↔
      ∃ m, g.lookup u = some m ∧ v ∈ m.downstream ∧ v ∈ g.keys := by
  unfold EdgeD edgeDB
  rcases h : g.lookup u with _ | m
  · simp
  · simp only [Bool.and_eq_true]
    constructor
    · rintro ⟨h1, h2⟩
      exact ⟨m, rfl, (contains_iff _ _).mp h1, (contains_iff _ _).mp h2⟩
    · rintro ⟨m', hm', h1, h2⟩
      cases hm'
      exact ⟨(contains_iff _ _).mpr h1, (contains_iff _ _).mpr h2⟩

theorem edgeD_intro (g : DBTGraph) (u v : String) (hu : u ∈ g.keys)
    (hd : v ∈ downstreamOf g u) (hv : v ∈ g.keys) : EdgeD g u v := by
  rcases lookup_of_mem_keys g u hu with ⟨m, hm⟩
  exact (edgeD_iff g u v).mpr ⟨m, hm, by rwa [downstreamOf_eq g u m hm] at hd, hv⟩

theorem edgeD_src_mem (g : DBTGraph) (u v : String) (h : EdgeD g u v) :
    u ∈ g.keys := by
  rcases (edgeD_iff g u v).mp h with ⟨m, hm, _, _⟩
  unfold DBTGraph.lookup at hm
  rcases ho : g.nodes.find? (fun p => p.1 == u) with _ | pr
  · rw [ho] at hm; cases hm
  · have h2 : pr.1 = u := by simpa using List.find?_some ho
    have h3 := List.mem_of_find?_eq_some ho
    exact h2 ▸ List.mem_map.mpr ⟨pr, h3, rfl⟩

theorem edgeD_tgt_mem (g : DBTGraph) (u v : String) (h : EdgeD g u v) :
    v ∈ g.keys := ((edgeD_iff g u v).mp h).choose_spec.2.2

theorem edgeD_downstream (g : DBTGraph) (u v : String) (h : EdgeD g u v) :
    v ∈ downstreamOf g u := by
  rcases (edgeD_iff g u v).mp h with ⟨m, hm, h1, _⟩
  rwa [downstreamOf_eq g u m hm]



theorem indexOf_snoc_self (l : List String) (u : String) (h : u ∉ l) :
    (l ++ [u]).indexOf u = l.length := by
  induction l with
  | nil => simp
  | cons x xs ih =>
    have hxu : x ≠ u := by rintro rfl; exact h (by simp)
    have h2 : u ∉ xs := fun hm => h (by simp [hm])
    simp only [List.cons_append, List.length_cons]
    rw [List.indexOf_cons_ne _ hxu, ih h2]

theorem nodup_snoc (l : List String) (u : String) (hl : l.Nodup)
    (h : u ∉ l) : (l ++ [u]).Nodup := by
  rw [List.nodup_append]
  refine ⟨hl, List.nodup_singleton u, ?_⟩
  intro x hx
  simp only [List.mem_singleton]
  rintro rfl
  exact h hx

theorem edgeInvB_snoc (g : DBTGraph) (black : List String) (u : String)
    (hinv : EdgeInvB g black) (hu : u ∉ black)
    (hcov : ∀ b, EdgeD g u b → b ∈ black) :
    EdgeInvB g (black ++ [u]) := by
  intro a ha b hab
  rcases (List.mem_append.mp ha) with ha' | ha'
  · rcases hinv a ha' b hab with ⟨hb, hlt⟩
    refine ⟨List.mem_append.mpr (Or.inl hb), ?_⟩
    rw [List.indexOf_append_of_mem hb, List.indexOf_append_of_mem ha']
    exact hlt
  · have hau : a = u := by simpa using ha'
    subst hau
    have hb := hcov b hab
    refine ⟨List.mem_append.mpr (Or.inl hb), ?_⟩
    rw [List.indexOf_append_of_mem hb, indexOf_snoc_self black a hu]
    exact List.indexOf_lt_length.mpr hb

theorem grayChain_congr (g : DBTGraph) (p p' : List (String × String)) :
    ∀ l : List String, (∀ x ∈ l, parentOf p' x = parentOf p x) →
      GrayChain g p l → GrayChain g p' l
  | [], _, _ => trivial
  | [x], hst, hc => by
    unfold GrayChain at hc ⊢
    rw [hst x (by simp)]
    exact hc
  | x :: y :: rest, hst, hc => by
    unfold GrayChain at hc ⊢
    refine ⟨?_, hc.2.1, ?_⟩
    · rw [hst x (by simp)]; exact hc.1
    · exact grayChain_congr g p p' (y :: rest)
        (fun z hz => hst z (List.mem_cons_of_mem x hz)) hc.2.2

theorem grayChain_tail (g : DBTGraph) (p : List (String × String))
    (x : String) (t : List String) (h : GrayChain g p (x :: t)) :
    GrayChain g p t := by
  cases t with
  | nil => trivial
  | cons y rest => exact h.2.2

theorem length_filter_mono (l : List String) (p q : String → Bool)
    (h : ∀ x ∈ l, q x = true → p x = true) :
    (l.filter q).length ≤ (l.filter p).length := by
  induction l with
  | nil => simp
  | cons x xs ih =>
    have ih' := ih (fun z hz => h z (List.mem_cons_of_mem x hz))
    cases hq : q x
    · cases hp : p x
      · simp only [List.filter_cons, hq, hp]
        simpa using ih'
      · simp only [List.filter_cons, hq, hp]
        simp only [Bool.false_eq_true, if_false, if_pos, List.length_cons]
        exact Nat.le_succ_of_le ih'
    · have hp := h x (by simp) hq
      simp only [List.filter_cons, hq, hp, if_pos, List.length_cons]
      exact Nat.succ_le_succ ih'

theorem length_filter_strict (l : List String) (p q : String → Bool)
    (h : ∀ x ∈ l, q x = true → p x = true) (v : String) (hv : v ∈ l)
    (hpv : p v = true) (hqv : q v = false) :
    (l.filter q).length < (l.filter p).length := by
  induction l with
  | nil => cases hv
  | cons x xs ih =>
    have hmono := length_filter_mono xs p q
      (fun z hz => h z (List.mem_cons_of_mem x hz))
    rcases List.mem_cons.mp hv with rfl | hv'
    · simp only [List.filter_cons, hqv, hpv, Bool.false_eq_true, if_false,
        if_pos, List.length_cons]
      exact Nat.lt_succ_of_le hmono
    · have ih' := ih (fun z hz => h z (List.mem_cons_of_mem x hz)) hv'
      cases hq : q x
      · cases hp : p x
        · simp only [List.filter_cons, hq, hp]
          simpa using ih'
        · simp only [List.filter_cons, hq, hp, Bool.false_eq_true, if_false,
            if_pos, List.length_cons]
          exact Nat.lt_succ_of_lt ih'
      · have hp := h x (by simp) hq
        simp only [List.filter_cons, hq, hp, if_pos, List.length_cons]
        exact Nat.succ_lt_succ ih'

theorem white_mem_iff (st : DfsState) (x : String) :
    (!(st.gray.contains x) && !(st.black.contains x)) = true ↔
      x ∉ st.gray ∧ x ∉ st.black := by
  rw [Bool.and_eq_true, Bool.not_eq_true', Bool.not_eq_true']
  constructor
  · rintro ⟨h1, h2⟩
    refine ⟨fun hm => ?_, fun hm => ?_⟩
    · rw [(contains_iff _ _).mpr hm] at h1; cases h1
    · rw [(contains_iff _ _).mpr hm] at h2; cases h2
  · rintro ⟨h1, h2⟩
    exact ⟨contains_eq_false _ _ h1, contains_eq_false _ _ h2⟩

theorem whiteCount_le (g : DBTGraph) (st : DfsState) :
    whiteCount g st ≤ g.keys.length :=
  List.length_filter_le _ _

theorem one_le_whiteCount (g : DBTGraph) (st : DfsState) (u : String)
    (hu : u ∈ g.keys) (hg : u ∉ st.gray) (hb : u ∉ st.black) :
    1 ≤ whiteCount g st := by
  have hm : u ∈ g.keys.filter
      (fun k => !(st.gray.contains k) && !(st.black.contains k)) :=
    List.mem_filter.mpr ⟨hu, (white_mem_iff st u).mpr ⟨hg, hb⟩⟩
  simpa [whiteCount] using List.length_pos_of_mem hm

theorem whiteCount_push_lt (g : DBTGraph) (st : DfsState) (u : String)
    (par : List (String × String)) (hu : u ∈ g.keys) (hg : u ∉ st.gray)
    (hb : u ∉ st.black) :
    whiteCount g ⟨u :: st.gray, st.black, par⟩ < whiteCount g st := by
  refine length_filter_strict g.keys
    (fun k => !(st.gray.contains k) && !(st.black.contains k))
    (fun k => !((u :: st.gray).contains k) && !(st.black.contains k))
    ?_ u hu ?_ ?_
  · intro x hx hqx
    rcases (white_mem_iff ⟨u :: st.gray, st.black, par⟩ x).mp hqx with ⟨h1, h2⟩
    exact (white_mem_iff st x).mpr
      ⟨fun hm => h1 (List.mem_cons_of_mem u hm), h2⟩
  · exact (white_mem_iff st u).mpr ⟨hg, hb⟩
  · have : (u :: st.gray).contains u = true :=
      (contains_iff _ _).mpr (by simp)
    simp [this]

theorem whiteCount_mono_post (g : DBTGraph) (st st' : DfsState)
    (hgray : st'.gray = st.gray) (nb : List String)
    (hblack : st'.black = st.black ++ nb) :
    whiteCount g st' ≤ whiteCount g st := by
  apply length_filter_mono
  intro x hx hqx
  rcases (white_mem_iff st' x).mp hqx with ⟨h1, h2⟩
  rw [hgray] at h1
  rw [hblack] at h2
  exact (white_mem_iff st x).mpr
    ⟨h1, fun hm => h2 (List.mem_append.mpr (Or.inl hm))⟩

theorem dfsPost_refl (g : DBTGraph) (st : DfsState) (h : DfsInv g st) :
    DfsPost g st st :=
  ⟨h, rfl, [], by simp⟩

theorem dfsPost_trans (g : DBTGraph) (st1 st2 st3 : DfsState)
    (h12 : DfsPost g st1 st2) (h23 : DfsPost g st2 st3) :
    DfsPost g st1 st3 := by
  rcases h12 with ⟨hi2, hg2, nb2, hb2⟩
  rcases h23 with ⟨hi3, hg3, nb3, hb3⟩
  exact ⟨hi3, hg3.trans hg2, nb2 ++ nb3, by rw [hb3, hb2, List.append_assoc]⟩

theorem dfsPost_black_mono (g : DBTGraph) (st st' : DfsState)
    (h : DfsPost g st st') (x : String) (hx : x ∈ st.black) :
    x ∈ st'.black := by
  rcases h with ⟨_, _, nb, hb⟩
  rw [hb]
  exact List.mem_append.mpr (Or.inl hx)



theorem white_not_parent_key (g : DBTGraph) (st : DfsState)
    (hinv : DfsInv g st) (u : String) (hg : u ∉ st.gray) (hb : u ∉ st.black) :
    u ∉ st.parent.map Prod.fst := by
  intro hm
  rcases List.mem_map.mp hm with ⟨pr, hpr, hpr1⟩
  rcases hinv.parent_nonwhite pr hpr with h | h
  · exact hg (hpr1 ▸ h)
  · exact hb (hpr1 ▸ h)

theorem parentOf_white_none (g : DBTGraph) (st : DfsState)
    (hinv : DfsInv g st) (u : String) (hg : u ∉ st.gray) (hb : u ∉ st.black) :
    parentOf st.parent u = none := by
  apply parentOf_eq_none
  intro pr hpr he
  exact white_not_parent_key g st hinv u hg hb
    (List.mem_map.mpr ⟨pr, hpr, he⟩)

theorem dfsInv_push_root (g : DBTGraph) (st : DfsState) (u : String)
    (hinv : DfsInv g st) (hu : u ∈ g.keys) (hb : u ∉ st.black)
    (hg0 : st.gray = []) :
    DfsInv g ⟨u :: st.gray, st.black, st.parent⟩ := by
  have hg : u ∉ st.gray := by rw [hg0]; simp
  constructor
  · intro x hx
    rcases List.mem_cons.mp hx with rfl | hx'
    · exact hu
    · exact hinv.gray_keys x hx'
  · exact hinv.black_keys
  · exact List.nodup_cons.mpr ⟨hg, hinv.gray_nodup⟩
  · exact hinv.black_nodup
  · intro x hx
    rcases List.mem_cons.mp hx with rfl | hx'
    · exact hb
    · exact hinv.gray_black x hx'
  · exact hinv.parent_keys_nodup
  · exact hinv.parent_edge
  · intro pr hpr
    rcases hinv.parent_nonwhite pr hpr with h | h
    · exact Or.inl (List.mem_cons_of_mem u h)
    · exact Or.inr h
  · show GrayChain g st.parent (u :: st.gray)
    rw [hg0]
    show parentOf st.parent u = none
    exact parentOf_white_none g st hinv u hg hb
  · exact hinv.black_inv

theorem dfsInv_push_child (g : DBTGraph) (st : DfsState) (u c : String)
    (t : List String) (hinv : DfsInv g st) (hu : u ∈ g.keys)
    (hg : u ∉ st.gray) (hb : u ∉ st.black) (hgt : st.gray = c :: t)
    (hcu : EdgeD g c u) :
    DfsInv g ⟨u :: st.gray, st.black, (u, c) :: st.parent⟩ := by
  have hkey : u ∉ st.parent.map Prod.fst :=
    white_not_parent_key g st hinv u hg hb
  have hstab : ∀ x ∈ st.gray, parentOf ((u, c) :: st.parent) x =
      parentOf st.parent x := by
    intro x hx
    exact parentOf_cons_ne st.parent u c x (fun hh => hg (hh ▸ hx))
  constructor
  · intro x hx
    rcases List.mem_cons.mp hx with rfl | hx'
    · exact hu
    · exact hinv.gray_keys x hx'
  · exact hinv.black_keys
  · exact List.nodup_cons.mpr ⟨hg, hinv.gray_nodup⟩
  · exact hinv.black_nodup
  · intro x hx
    rcases List.mem_cons.mp hx with rfl | hx'
    · exact hb
    · exact hinv.gray_black x hx'
  · show (((u, c) :: st.parent).map Prod.fst).Nodup
    rw [List.map_cons]
    exact List.nodup_cons.mpr ⟨hkey, hinv.parent_keys_nodup⟩
  · intro pr hpr
    rcases List.mem_cons.mp hpr with rfl | hpr'
    · exact hcu
    · exact hinv.parent_edge pr hpr'
  · intro pr hpr
    rcases List.mem_cons.mp hpr with rfl | hpr'
    · exact Or.inl (by simp)
    · rcases hinv.parent_nonwhite pr hpr' with h | h
      · exact Or.inl (List.mem_cons_of_mem u h)
      · exact Or.inr h
  · show GrayChain g ((u, c) :: st.parent) (u :: st.gray)
    rw [hgt]
    show parentOf ((u, c) :: st.parent) u = some c ∧ EdgeD g c u ∧
      GrayChain g ((u, c) :: st.parent) (c :: t)
    refine ⟨parentOf_cons_self st.parent u c, hcu, ?_⟩
    apply grayChain_congr g st.parent ((u, c) :: st.parent) (c :: t)
    · intro x hx
      exact hstab x (hgt ▸ hx)
    · have := hinv.gray_chain
      rwa [hgt] at this
  · exact hinv.black_inv

theorem dfsInv_blacken (g : DBTGraph) (st2 : DfsState) (u : String)
    (grest : List String) (hinv : DfsInv g st2) (hgray : st2.gray = u :: grest)
    (hcov : ∀ b, EdgeD g u b → b ∈ st2.black) :
    DfsInv g ⟨st2.gray.erase u, st2.black ++ [u], st2.parent⟩ := by
  have humem : u ∈ st2.gray := by rw [hgray]; simp
  have hub : u ∉ st2.black := hinv.gray_black u humem
  have huk : u ∈ g.keys := hinv.gray_keys u humem
  have hue : st2.gray.erase u = grest := by
    rw [hgray]; exact List.erase_cons_head u grest
  have hug : u ∉ grest := by
    have h := hinv.gray_nodup
    rw [hgray] at h
    exact (List.nodup_cons.mp h).1
  constructor
  · intro x hx
    exact hinv.gray_keys x (List.mem_of_mem_erase hx)
  · intro x hx
    rcases List.mem_append.mp hx with hx' | hx'
    · exact hinv.black_keys x hx'
    · have : x = u := by simpa using hx'
      exact this ▸ huk
  · exact hinv.gray_nodup.erase u
  · exact nodup_snoc st2.black u hinv.black_nodup hub
  · intro x hx
    rw [hue] at hx
    have hxg : x ∈ st2.gray := by rw [hgray]; exact List.mem_cons_of_mem u hx
    intro hmem
    rcases List.mem_append.mp hmem with h | h
    · exact hinv.gray_black x hxg h
    · have : x = u := by simpa using h
      exact hug (this ▸ hx)
  · exact hinv.parent_keys_nodup
  · exact hinv.parent_edge
  · intro pr hpr
    rcases hinv.parent_nonwhite pr hpr with h | h
    · rw [hgray] at h
      rcases List.mem_cons.mp h with h' | h'
      · exact Or.inr (List.mem_append.mpr (Or.inr (by simp [h'])))
      · exact Or.inl (by rw [hue]; exact h')
    · exact Or.inr (List.mem_append.mpr (Or.inl h))
  · show GrayChain g st2.parent (st2.gray.erase u)
    rw [hue]
    apply grayChain_tail g st2.parent u grest
    have := hinv.gray_chain
    rwa [hgray] at this
  · exact edgeInvB_snoc g st2.black u hinv.black_inv hub hcov



theorem grayChain_extract (g : DBTGraph) (parent : List (String × String)) :
    ∀ (pre : List String) (u v : String) (post : List String),
      GrayChain g parent (u :: (pre ++ v :: post)) →
      ParentPathE g parent u pre v
  | [], u, v, post, hc => by
    simp only [List.nil_append] at hc
    unfold GrayChain at hc
    exact ⟨hc.1, hc.2.1⟩
  | c :: cs, u, v, post, hc => by
    simp only [List.cons_append] at hc
    unfold GrayChain at hc
    exact ⟨hc.1, hc.2.1,
      grayChain_extract g parent cs c v post (by
        simpa only [List.cons_append] using hc.2.2)⟩

theorem parentPathE_sources (g : DBTGraph) (parent : List (String × String)) :
    ∀ (pre : List String) (u v : String),
      ParentPathE g parent u pre v →
      ∀ x ∈ u :: pre, ∃ y, parentOf parent x = some y
  | [], u, v, hp, x, hx => by
    rcases List.mem_cons.mp hx with rfl | hx'
    · exact ⟨v, hp.1⟩
    · cases hx'
  | c :: cs, u, v, hp, x, hx => by
    rcases List.mem_cons.mp hx with rfl | hx'
    · exact ⟨c, hp.1⟩
    · exact parentPathE_sources g parent cs c v hp.2.2 x hx'

theorem climb_eq (g : DBTGraph) (parent : List (String × String)) :
    ∀ (pre : List String) (u v : String) (fuel : Nat),
      ParentPathE g parent u pre v → v ∉ pre → pre.length < fuel →
      climb parent fuel v u = pre := by
  intro pre
  induction pre with
  | nil =>
    intro u v fuel hp hv hf
    cases fuel with
    | zero => omega
    | succ f =>
      rw [climb_succ, hp.1]
      show (if v = v then [] else v :: climb parent f v v) = []
      rw [if_pos rfl]
  | cons c cs ih =>
    intro u v fuel hp hv hf
    obtain ⟨h1, h2, h3⟩ := hp
    cases fuel with
    | zero => simp at hf
    | succ f =>
      have hcv : c ≠ v := by rintro rfl; exact hv (by simp)
      rw [climb_succ, h1]
      show (if c = v then [] else c :: climb parent f v c) = c :: cs
      rw [if_neg hcv]
      congr 1
      exact ih c v f h3 (fun hm => hv (List.mem_cons_of_mem c hm))
        (by simp at hf; omega)

theorem path_of_parentPathE (g : DBTGraph) (parent : List (String × String)) :
    ∀ (pre : List String) (u v : String),
      ParentPathE g parent u pre v →
      ∃ f : Nat → String, f 0 = v ∧ f (pre.length + 1) = u ∧
        (∀ k ≤ pre.length, EdgeD g (f k) (f (k + 1))) ∧
        (∀ k, f k ∈ u :: (pre ++ [v])) := by
  intro pre
  induction pre with
  | nil =>
    intro u v hp
    refine ⟨fun k => if k = 0 then v else u, rfl, by simp, ?_, ?_⟩
    · intro k hk
      have hk0 : k = 0 := Nat.le_zero.mp hk
      subst hk0
      simpa using hp.2
    · intro k
      by_cases hk : k = 0 <;> simp [hk]
  | cons c cs ih =>
    intro u v hp
    obtain ⟨h1, h2, h3⟩ := hp
    obtain ⟨f, hf0, hfl, hedges, hmem⟩ := ih c v h3
    refine ⟨fun k => if k ≤ cs.length + 1 then f k else u, by simpa using hf0,
      ?_, ?_, ?_⟩
    · have hc : ¬ ((c :: cs).length + 1 ≤ cs.length + 1) := by simp
      simp only [if_neg hc]
    · intro k hk
      simp only [List.length_cons] at hk
      by_cases hk1 : k ≤ cs.length
      · have c1 : k ≤ cs.length + 1 := by omega
        have c2 : k + 1 ≤ cs.length + 1 := by omega
        simp only [if_pos c1, if_pos c2]
        exact hedges k hk1
      · have hkeq : k = cs.length + 1 := by omega
        subst hkeq
        have c2 : ¬ (cs.length + 1 + 1 ≤ cs.length + 1) := by omega
        simp only [if_pos (le_refl (cs.length + 1)), if_neg c2]
        rw [hfl]
        exact h2
    · intro k
      by_cases hk : k ≤ cs.length + 1
      · simp only [if_pos hk]
        have hm := hmem k
        simp only [List.cons_append]
        exact List.mem_cons_of_mem u (by simpa using hm)
      · simp only [if_neg hk]
        exact List.mem_cons_self _ _

theorem mem_buildCycle (parent : List (String × String)) (u v x : String)
    (hx : x = u ∨ x = v ∨ x ∈ climb parent (parent.length + 1) v u) :
    x ∈ buildCycle parent u v := by
  unfold buildCycle
  rw [List.mem_reverse]
  simp only [List.mem_append, List.mem_cons, List.mem_singleton,
    List.not_mem_nil, or_false]
  rcases hx with rfl | rfl | hx
  · exact Or.inl (Or.inl (Or.inr rfl))
  · exact Or.inr rfl
  · exact Or.inl (Or.inr hx)

theorem buildCycle_ne_nil (parent : List (String × String)) (u v : String) :
    buildCycle parent u v ≠ [] :=
  List.ne_nil_of_mem (mem_buildCycle parent u v v (Or.inr (Or.inl rfl)))

theorem cycleSound_of_gray (g : DBTGraph) (st : DfsState) (u v : String)
    (grest : List String) (hinv : DfsInv g st) (hgray : st.gray = u :: grest)
    (hv : v ∈ st.gray) (huv : EdgeD g u v) :
    CycleSound g (buildCycle st.parent u v) := by
  rw [hgray] at hv
  rcases List.mem_cons.mp hv with rfl | hv'
  · refine ⟨buildCycle_ne_nil st.parent v v, fun _ => v, 1, Nat.one_pos,
      rfl, ?_, ?_⟩
    · intro k hk
      exact huv
    · intro k
      exact mem_buildCycle st.parent v v v (Or.inl rfl)
  · obtain ⟨pre, post, hsplit⟩ := List.append_of_mem hv'
    have hchain := hinv.gray_chain
    rw [hgray, hsplit] at hchain
    have hpath := grayChain_extract g st.parent pre u v post hchain
    have hnd : (u :: (pre ++ v :: post)).Nodup := by
      have h := hinv.gray_nodup
      rwa [hgray, hsplit] at h
    have hvpre : v ∉ pre := by
      have h1 : (pre ++ v :: post).Nodup := (List.nodup_cons.mp hnd).2
      have hdisj := List.disjoint_of_nodup_append h1
      intro hm
      exact hdisj hm (by simp)
    have hndup : (u :: pre).Nodup := by
      refine List.Nodup.sublist ?_ hnd
      exact List.Sublist.cons₂ u (List.sublist_append_left pre (v :: post))
    have hsub : ∀ x ∈ u :: pre, x ∈ st.parent.map Prod.fst := by
      intro x hx
      obtain ⟨y, hy⟩ := parentPathE_sources g st.parent pre u v hpath x hx
      exact parentOf_some_key st.parent x y hy
    have hlen : pre.length + 1 ≤ st.parent.length := by
      have hsp := List.Subperm.length_le (hndup.subperm hsub)
      simpa using hsp
    have hclimb := climb_eq g st.parent pre u v (st.parent.length + 1) hpath
      hvpre (by omega)
    have hbc : buildCycle st.parent u v = (([v, u] ++ pre) ++ [v]).reverse := by
      unfold buildCycle
      rw [hclimb]
    obtain ⟨f, hf0, hfl, hedges, hmem⟩ :=
      path_of_parentPathE g st.parent pre u v hpath
    have hmem' : ∀ x, x ∈ u :: (pre ++ [v]) → x ∈ buildCycle st.parent u v := by
      intro x hx
      rw [hbc, List.mem_reverse]
      simp only [List.mem_append, List.mem_cons, List.mem_singleton,
        List.not_mem_nil, or_false] at hx ⊢
      rcases hx with rfl | hx | rfl
      · exact Or.inl (Or.inl (Or.inr rfl))
      · exact Or.inl (Or.inr hx)
      · exact Or.inr rfl
    refine ⟨buildCycle_ne_nil st.parent u v,
      fun k => if k < pre.length + 2 then f k else v, pre.length + 2,
      by omega, ?_, ?_, ?_⟩
    · have hc : ¬ (pre.length + 2 < pre.length + 2) := by omega
      simp only [if_neg hc, if_pos (by omega : 0 < pre.length + 2)]
      exact hf0.symm
    · intro k hk
      by_cases hk1 : k ≤ pre.length
      · have c1 : k < pre.length + 2 := by omega
        have c2 : k + 1 < pre.length + 2 := by omega
        simp only [if_pos c1, if_pos c2]
        exact hedges k hk1
      · have hkeq : k = pre.length + 1 := by omega
        subst hkeq
        have c1 : pre.length + 1 < pre.length + 2 := by omega
        have c2 : ¬ (pre.length + 1 + 1 < pre.length + 2) := by omega
        simp only [if_pos c1, if_neg c2]
        rw [hfl]
        exact huv
    · intro k
      by_cases hk : k < pre.length + 2
      · simp only [if_pos hk]
        exact hmem' (f k) (hmem k)
      · simp only [if_neg hk]
        exact hmem' v (by simp)



theorem dfsVisit_succ_root (g : DBTGraph) (fuel : Nat) (u : String)
    (st : DfsState) :
    dfsVisit g (fuel + 1) u none st =
      match neighLoop g (fun v s => dfsVisit g fuel v (some u) s) u
          (downstreamOf g u) ⟨u :: st.gray, st.black, st.parent⟩ with
      | none => none
      | some (some cyc, st2) => some (some cyc, st2)
      | some (none, st2) =>
        some (none, ⟨st2.gray.erase u, st2.black ++ [u], st2.parent⟩) := rfl

theorem dfsVisit_succ_child (g : DBTGraph) (fuel : Nat) (u c : String)
    (st : DfsState) :
    dfsVisit g (fuel + 1) u (some c) st =
      match neighLoop g (fun v s => dfsVisit g fuel v (some u) s) u
          (downstreamOf g u) ⟨u :: st.gray, st.black, (u, c) :: st.parent⟩ with
      | none => none
      | some (some cyc, st2) => some (some cyc, st2)
      | some (none, st2) =>
        some (none, ⟨st2.gray.erase u, st2.black ++ [u], st2.parent⟩) := rfl

theorem neighLoop_ok (g : DBTGraph) (u : String) (grest : List String)
    (visit : String → DfsState → Option (Option (List String) × DfsState))
    (hvok : VisitOk g u visit) :
    ∀ (vs : List String) (st : DfsState),
      DfsInv g st → u ∈ g.keys → st.gray = u :: grest →
      (∀ v ∈ vs, v ∈ downstreamOf g u) →
      (∀ cyc st', neighLoop g visit u vs st = some (some cyc, st') →
        CycleSound g cyc) ∧
      (∀ st', neighLoop g visit u vs st = some (none, st') →
        DfsPost g st st' ∧ ∀ v ∈ vs, v ∈ g.keys → v ∈ st'.black) := by
  intro vs
  induction vs with
  | nil =>
    intro st hinv hu hgr hdown
    constructor
    · intro cyc st' h
      rw [neighLoop_nil] at h
      simp at h
    · intro st' h
      rw [neighLoop_nil] at h
      simp only [Option.some.injEq, Prod.mk.injEq, true_and] at h
      rw [← h]
      exact ⟨dfsPost_refl g st hinv, by simp⟩
  | cons v vs ih =>
    intro st hinv hu hgr hdown
    have hdown' : ∀ w ∈ vs, w ∈ downstreamOf g u :=
      fun w hw => hdown w (List.mem_cons_of_mem v hw)
    by_cases hk : g.keys.contains v = false
    · have heq : neighLoop g visit u (v :: vs) st = neighLoop g visit u vs st := by
        rw [neighLoop_cons, if_pos hk]
      obtain ⟨ih1, ih2⟩ := ih st hinv hu hgr hdown'
      constructor
      · intro cyc st' h
        rw [heq] at h
        exact ih1 cyc st' h
      · intro st' h
        rw [heq] at h
        obtain ⟨hpost, hcov⟩ := ih2 st' h
        refine ⟨hpost, ?_⟩
        intro w hw hwk
        rcases List.mem_cons.mp hw with rfl | hw'
        · rw [(contains_iff _ _).mpr hwk] at hk
          cases hk
        · exact hcov w hw' hwk
    · have hkt : g.keys.contains v = true := by
        cases hcv : g.keys.contains v
        · exact absurd hcv hk
        · rfl
      have hvkeys : v ∈ g.keys := (contains_iff _ _).mp hkt
      have hedge : EdgeD g u v := edgeD_intro g u v hu (hdown v (by simp)) hvkeys
      by_cases hgv : st.gray.contains v = true
      · have heq : neighLoop g visit u (v :: vs) st =
            some (some (buildCycle st.parent u v), st) := by
          rw [neighLoop_cons, if_neg (by rw [hkt]; simp), if_pos hgv]
        constructor
        · intro cyc st' h
          rw [heq] at h
          simp only [Option.some.injEq, Prod.mk.injEq] at h
          rw [← h.1]
          exact cycleSound_of_gray g st u v grest hinv hgr
            ((contains_iff _ _).mp hgv) hedge
        · intro st' h
          rw [heq] at h
          simp at h
      · have hgvf : st.gray.contains v = false := by
          cases hcv : st.gray.contains v
          · rfl
          · exact absurd hcv hgv
        have hvng : v ∉ st.gray := fun hm => by
          rw [(contains_iff _ _).mpr hm] at hgvf; cases hgvf
        by_cases hbv : st.black.contains v = true
        · have heq : neighLoop g visit u (v :: vs) st =
              neighLoop g visit u vs st := by
            rw [neighLoop_cons, if_neg (by rw [hkt]; simp),
              if_neg (by rw [hgvf]; simp), if_pos hbv]
          obtain ⟨ih1, ih2⟩ := ih st hinv hu hgr hdown'
          constructor
          · intro cyc st' h
            rw [heq] at h
            exact ih1 cyc st' h
          · intro st' h
            rw [heq] at h
            obtain ⟨hpost, hcov⟩ := ih2 st' h
            refine ⟨hpost, ?_⟩
            intro w hw hwk
            rcases List.mem_cons.mp hw with rfl | hw'
            · exact dfsPost_black_mono g st st' hpost w
                ((contains_iff _ _).mp hbv)
            · exact hcov w hw' hwk
        · have hbvf : st.black.contains v = false := by
            cases hcv : st.black.contains v
            · rfl
            · exact absurd hcv hbv
          have hvnb : v ∉ st.black := fun hm => by
            rw [(contains_iff _ _).mpr hm] at hbvf; cases hbvf
          obtain ⟨hv1, hv2⟩ := hvok v st hinv hvkeys hvng hvnb ⟨grest, hgr⟩ hedge
          rcases hres : visit v st with _ | ⟨cycopt, st2⟩
          · have heq : neighLoop g visit u (v :: vs) st = none := by
              rw [neighLoop_cons, if_neg (by rw [hkt]; simp),
                if_neg (by rw [hgvf]; simp), if_neg (by rw [hbvf]; simp), hres]
            constructor
            · intro cyc st' h
              rw [heq] at h
              cases h
            · intro st' h
              rw [heq] at h
              cases h
          · rcases cycopt with _ | cyc0
            · obtain ⟨hpost2, hvb2⟩ := hv2 st2 hres
              have heq : neighLoop g visit u (v :: vs) st =
                  neighLoop g visit u vs st2 := by
                rw [neighLoop_cons, if_neg (by rw [hkt]; simp),
                  if_neg (by rw [hgvf]; simp), if_neg (by rw [hbvf]; simp), hres]
              have hgr2 : st2.gray = u :: grest := by rw [hpost2.2.1, hgr]
              obtain ⟨ih1, ih2⟩ := ih st2 hpost2.1 hu hgr2 hdown'
              constructor
              · intro cyc st' h
                rw [heq] at h
                exact ih1 cyc st' h
              · intro st' h
                rw [heq] at h
                obtain ⟨hpost3, hcov⟩ := ih2 st' h
                refine ⟨dfsPost_trans g st st2 st' hpost2 hpost3, ?_⟩
                intro w hw hwk
                rcases List.mem_cons.mp hw with rfl | hw'
                · exact dfsPost_black_mono g st2 st' hpost3 w hvb2
                · exact hcov w hw' hwk
            · have heq : neighLoop g visit u (v :: vs) st =
                  some (some cyc0, st2) := by
                rw [neighLoop_cons, if_neg (by rw [hkt]; simp),
                  if_neg (by rw [hgvf]; simp), if_neg (by rw [hbvf]; simp), hres]
              constructor
              · intro cyc st' h
                rw [heq] at h
                simp only [Option.some.injEq, Prod.mk.injEq] at h
                rw [← h.1]
                exact hv1 cyc0 st2 hres
              · intro st' h
                rw [heq] at h
                simp at h



theorem finish_post (g : DBTGraph) (st st1 st2 : DfsState) (u : String)
    (hg1 : st1.gray = u :: st.gray) (hb1 : st1.black = st.black)
    (hpost : DfsPost g st1 st2)
    (hcov : ∀ v ∈ downstreamOf g u, v ∈ g.keys → v ∈ st2.black) :
    DfsPost g st ⟨st2.gray.erase u, st2.black ++ [u], st2.parent⟩ ∧
      u ∈ (⟨st2.gray.erase u, st2.black ++ [u], st2.parent⟩ : DfsState).black := by
  obtain ⟨hinv2, hgray2, nb, hblack2⟩ := hpost
  have hgray2' : st2.gray = u :: st.gray := by rw [hgray2, hg1]
  have hcovE : ∀ b, EdgeD g u b → b ∈ st2.black := fun b hb =>
    hcov b (edgeD_downstream g u b hb) (edgeD_tgt_mem g u b hb)
  have hinv3 := dfsInv_blacken g st2 u st.gray hinv2 hgray2' hcovE
  refine ⟨⟨hinv3, ?_, nb ++ [u], ?_⟩, ?_⟩
  · show st2.gray.erase u = st.gray
    rw [hgray2']
    exact List.erase_cons_head u st.gray
  · show st2.black ++ [u] = st.black ++ (nb ++ [u])
    rw [hblack2, hb1, List.append_assoc]
  · show u ∈ st2.black ++ [u]
    exact List.mem_append.mpr (Or.inr (by simp))

theorem dfsVisit_ok (g : DBTGraph) :
    ∀ (fuel : Nat) (u : String) (opar : Option String) (st : DfsState),
      DfsInv g st → u ∈ g.keys → u ∉ st.gray → u ∉ st.black →
      (match opar with
       | none => st.gray = []
       | some c => (∃ t, st.gray = c :: t) ∧ EdgeD g c u) →
      (∀ cyc st', dfsVisit g fuel u opar st = some (some cyc, st') →
        CycleSound g cyc) ∧
      (∀ st', dfsVisit g fuel u opar st = some (none, st') →
        DfsPost g st st' ∧ u ∈ st'.black) := by
  intro fuel
  induction fuel with
  | zero =>
    intro u opar st _ _ _ _ _
    constructor
    · intro cyc st' h
      rw [show dfsVisit g 0 u opar st = none from rfl] at h
      cases h
    · intro st' h
      rw [show dfsVisit g 0 u opar st = none from rfl] at h
      cases h
  | succ fuel ih =>
    intro u opar st hinv hu hg hb hopar
    have hvok : VisitOk g u (fun v s => dfsVisit g fuel v (some u) s) := by
      intro v stv hinv' hvk hvg hvb hgt hedge
      exact ih v (some u) stv hinv' hvk hvg hvb ⟨hgt, hedge⟩
    rcases opar with _ | c
    · have hg0 : st.gray = [] := hopar
      have hinv1 : DfsInv g ⟨u :: st.gray, st.black, st.parent⟩ :=
        dfsInv_push_root g st u hinv hu hb hg0
      obtain ⟨hnl1, hnl2⟩ := neighLoop_ok g u st.gray
        (fun v s => dfsVisit g fuel v (some u) s) hvok (downstreamOf g u)
        ⟨u :: st.gray, st.black, st.parent⟩ hinv1 hu rfl (fun w hw => hw)
      rcases hres : neighLoop g (fun v s => dfsVisit g fuel v (some u) s) u
          (downstreamOf g u) ⟨u :: st.gray, st.black, st.parent⟩
        with _ | ⟨cycopt, st2⟩
      · constructor
        · intro cyc st' h
          rw [dfsVisit_succ_root, hres] at h
          cases h
        · intro st' h
          rw [dfsVisit_succ_root, hres] at h
          cases h
      · rcases cycopt with _ | cyc0
        · obtain ⟨hpost2, hcov2⟩ := hnl2 st2 hres
          have hfin := finish_post g st ⟨u :: st.gray, st.black, st.parent⟩
            st2 u rfl rfl hpost2 hcov2
          constructor
          · intro cyc st' h
            rw [dfsVisit_succ_root, hres] at h
            simp at h
          · intro st' h
            rw [dfsVisit_succ_root, hres] at h
            simp only [Option.some.injEq, Prod.mk.injEq, true_and] at h
            rw [← h]
            exact hfin
        · constructor
          · intro cyc st' h
            rw [dfsVisit_succ_root, hres] at h
            simp only [Option.some.injEq, Prod.mk.injEq] at h
            rw [← h.1]
            exact hnl1 cyc0 st2 hres
          · intro st' h
            rw [dfsVisit_succ_root, hres] at h
            simp at h
    · obtain ⟨⟨t, hgt⟩, hcu⟩ := hopar
      have hinv1 : DfsInv g ⟨u :: st.gray, st.black, (u, c) :: st.parent⟩ :=
        dfsInv_push_child g st u c t hinv hu hg hb hgt hcu
      obtain ⟨hnl1, hnl2⟩ := neighLoop_ok g u st.gray
        (fun v s => dfsVisit g fuel v (some u) s) hvok (downstreamOf g u)
        ⟨u :: st.gray, st.black, (u, c) :: st.parent⟩ hinv1 hu rfl
        (fun w hw => hw)
      rcases hres : neighLoop g (fun v s => dfsVisit g fuel v (some u) s) u
          (downstreamOf g u) ⟨u :: st.gray, st.black, (u, c) :: st.parent⟩
        with _ | ⟨cycopt, st2⟩
      · constructor
        · intro cyc st' h
          rw [dfsVisit_succ_child, hres] at h
          cases h
        · intro st' h
          rw [dfsVisit_succ_child, hres] at h
          cases h
      · rcases cycopt with _ | cyc0
        · obtain ⟨hpost2, hcov2⟩ := hnl2 st2 hres
          have hfin := finish_post g st
            ⟨u :: st.gray, st.black, (u, c) :: st.parent⟩ st2 u rfl rfl
            hpost2 hcov2
          constructor
          · intro cyc st' h
            rw [dfsVisit_succ_child, hres] at h
            simp at h
          · intro st' h
            rw [dfsVisit_succ_child, hres] at h
            simp only [Option.some.injEq, Prod.mk.injEq, true_and] at h
            rw [← h]
            exact hfin
        · constructor
          · intro cyc st' h
            rw [dfsVisit_succ_child, hres] at h
            simp only [Option.some.injEq, Prod.mk.injEq] at h
            rw [← h.1]
            exact hnl1 cyc0 st2 hres
          · intro st' h
            rw [dfsVisit_succ_child, hres] at h
            simp at h



theorem neighLoop_progress (g : DBTGraph) (u : String) (grest : List String)
    (visit : String → DfsState → Option (Option (List String) × DfsState))
    (bound : Nat) (hvok : VisitOk g u visit)
    (hvnf : VisitNoFuelout g u visit bound) :
    ∀ (vs : List String) (st : DfsState),
      DfsInv g st → u ∈ g.keys → st.gray = u :: grest →
      (∀ v ∈ vs, v ∈ downstreamOf g u) → whiteCount g st ≤ bound →
      neighLoop g visit u vs st ≠ none := by
  intro vs
  induction vs with
  | nil =>
    intro st _ _ _ _ _
    rw [neighLoop_nil]
    simp
  | cons v vs ih =>
    intro st hinv hu hgr hdown hwc
    have hdown' : ∀ w ∈ vs, w ∈ downstreamOf g u :=
      fun w hw => hdown w (List.mem_cons_of_mem v hw)
    by_cases hk : g.keys.contains v = false
    · rw [neighLoop_cons, if_pos hk]
      exact ih st hinv hu hgr hdown' hwc
    · have hkt : g.keys.contains v = true := by
        cases hcv : g.keys.contains v
        · exact absurd hcv hk
        · rfl
      have hvkeys : v ∈ g.keys := (contains_iff _ _).mp hkt
      have hedge : EdgeD g u v := edgeD_intro g u v hu (hdown v (by simp)) hvkeys
      by_cases hgv : st.gray.contains v = true
      · rw [neighLoop_cons, if_neg (by rw [hkt]; simp), if_pos hgv]
        simp
      · have hgvf : st.gray.contains v = false := by
          cases hcv : st.gray.contains v
          · rfl
          · exact absurd hcv hgv
        have hvng : v ∉ st.gray := fun hm => by
          rw [(contains_iff _ _).mpr hm] at hgvf; cases hgvf
        by_cases hbv : st.black.contains v = true
        · rw [neighLoop_cons, if_neg (by rw [hkt]; simp),
            if_neg (by rw [hgvf]; simp), if_pos hbv]
          exact ih st hinv hu hgr hdown' hwc
        · have hbvf : st.black.contains v = false := by
            cases hcv : st.black.contains v
            · rfl
            · exact absurd hcv hbv
          have hvnb : v ∉ st.black := fun hm => by
            rw [(contains_iff _ _).mpr hm] at hbvf; cases hbvf
          obtain ⟨hv1, hv2⟩ := hvok v st hinv hvkeys hvng hvnb ⟨grest, hgr⟩ hedge
          rcases hres : visit v st with _ | ⟨cycopt, st2⟩
          · exact absurd hres
              (hvnf v st hinv hvkeys hvng hvnb ⟨grest, hgr⟩ hedge hwc)
          · rcases cycopt with _ | cyc0
            · obtain ⟨hpost2, _⟩ := hv2 st2 hres
              rw [neighLoop_cons, if_neg (by rw [hkt]; simp),
                if_neg (by rw [hgvf]; simp), if_neg (by rw [hbvf]; simp), hres]
              have hgr2 : st2.gray = u :: grest := by rw [hpost2.2.1, hgr]
              obtain ⟨_, hgray2, nb, hblack2⟩ := hpost2
              have hwc2 : whiteCount g st2 ≤ bound :=
                le_trans (whiteCount_mono_post g st st2 hgray2 nb hblack2) hwc
              exact ih st2
                (by exact (hv2 st2 hres).1.1) hu hgr2 hdown' hwc2
            · rw [neighLoop_cons, if_neg (by rw [hkt]; simp),
                if_neg (by rw [hgvf]; simp), if_neg (by rw [hbvf]; simp), hres]
              simp

theorem dfsVisit_progress (g : DBTGraph) :
    ∀ (fuel : Nat) (u : String) (opar : Option String) (st : DfsState),
      DfsInv g st → u ∈ g.keys → u ∉ st.gray → u ∉ st.black →
      (match opar with
       | none => st.gray = []
       | some c => (∃ t, st.gray = c :: t) ∧ EdgeD g c u) →
      whiteCount g st ≤ fuel →
      dfsVisit g fuel u opar st ≠ none := by
  intro fuel
  induction fuel with
  | zero =>
    intro u opar st hinv hu hg hb _ hwc
    have := one_le_whiteCount g st u hu hg hb
    omega
  | succ fuel ih =>
    intro u opar st hinv hu hg hb hopar hwc
    have hvok : VisitOk g u (fun v s => dfsVisit g fuel v (some u) s) := by
      intro v stv hinv' hvk hvg hvb hgt hedge
      exact dfsVisit_ok g fuel v (some u) stv hinv' hvk hvg hvb ⟨hgt, hedge⟩
    have hvnf : VisitNoFuelout g u
        (fun v s => dfsVisit g fuel v (some u) s) fuel := by
      intro v stv hinv' hvk hvg hvb hgt hedge hwc'
      exact ih v (some u) stv hinv' hvk hvg hvb ⟨hgt, hedge⟩ hwc'
    rcases opar with _ | c
    · have hg0 : st.gray = [] := hopar
      have hinv1 : DfsInv g ⟨u :: st.gray, st.black, st.parent⟩ :=
        dfsInv_push_root g st u hinv hu hb hg0
      have hwc1 : whiteCount g ⟨u :: st.gray, st.black, st.parent⟩ ≤ fuel := by
        have := whiteCount_push_lt g st u st.parent hu hg hb
        omega
      have hprog := neighLoop_progress g u st.gray
        (fun v s => dfsVisit g fuel v (some u) s) fuel hvok hvnf
        (downstreamOf g u) ⟨u :: st.gray, st.black, st.parent⟩ hinv1 hu rfl
        (fun w hw => hw) hwc1
      intro h
      rw [dfsVisit_succ_root] at h
      rcases hres : neighLoop g (fun v s => dfsVisit g fuel v (some u) s) u
          (downstreamOf g u) ⟨u :: st.gray, st.black, st.parent⟩
        with _ | ⟨cycopt, st2⟩
      · exact hprog hres
      · rw [hres] at h
        rcases cycopt with _ | cyc0 <;> simp at h
    · obtain ⟨⟨t, hgt⟩, hcu⟩ := hopar
      have hinv1 : DfsInv g ⟨u :: st.gray, st.black, (u, c) :: st.parent⟩ :=
        dfsInv_push_child g st u c t hinv hu hg hb hgt hcu
      have hwc1 : whiteCount g ⟨u :: st.gray, st.black, (u, c) :: st.parent⟩ ≤
          fuel := by
        have := whiteCount_push_lt g st u ((u, c) :: st.parent) hu hg hb
        omega
      have hprog := neighLoop_progress g u st.gray
        (fun v s => dfsVisit g fuel v (some u) s) fuel hvok hvnf
        (downstreamOf g u) ⟨u :: st.gray, st.black, (u, c) :: st.parent⟩
        hinv1 hu rfl (fun w hw => hw) hwc1
      intro h
      rw [dfsVisit_succ_child] at h
      rcases hres : neighLoop g (fun v s => dfsVisit g fuel v (some u) s) u
          (downstreamOf g u) ⟨u :: st.gray, st.black, (u, c) :: st.parent⟩
        with _ | ⟨cycopt, st2⟩
      · exact hprog hres
      · rw [hres] at h
        rcases cycopt with _ | cyc0 <;> simp at h



theorem dfsInv_init (g : DBTGraph) : DfsInv g ⟨[], [], []⟩ := by
  constructor
  · intro x hx; cases hx
  · intro x hx; cases hx
  · exact List.nodup_nil
  · exact List.nodup_nil
  · intro x hx; cases hx
  · exact List.nodup_nil
  · intro pr hpr; cases hpr
  · intro pr hpr; cases hpr
  · trivial
  · intro a ha; cases ha

theorem no_walk_of_all_black (g : DBTGraph) (black : List String)
    (hinv : EdgeInvB g black) (hall : ∀ x ∈ g.keys, x ∈ black) :
    ¬ HasClosedWalk (EdgeD g) := by
  rintro ⟨f, n, hn, hclose, hedges⟩
  have hmemb : ∀ k, k < n → f k ∈ black := fun k hk =>
    hall _ (edgeD_src_mem g _ _ (hedges k hk))
  have hdesc : ∀ k, k ≤ n → black.indexOf (f k) + k ≤ black.indexOf (f 0) := by
    intro k
    induction k with
    | zero => intro _; omega
    | succ k ihk =>
      intro hk1
      have h1 := ihk (by omega)
      have hb := hmemb k (by omega)
      have h2 := hinv (f k) hb (f (k + 1)) (hedges k (by omega))
      omega
  have h3 := hdesc n (le_refl n)
  rw [hclose] at h3
  omega

theorem detectLoop_spec (g : DBTGraph) :
    ∀ (ks : List String) (st : DfsState),
      DfsInv g st → st.gray = [] → (∀ x ∈ ks, x ∈ g.keys) →
      (∀ cyc, detectLoop g ks st = some cyc → CycleSound g cyc) ∧
      (detectLoop g ks st = none →
        ∃ st', DfsInv g st' ∧ (∃ nb, st'.black = st.black ++ nb) ∧
          ∀ x ∈ ks, x ∈ st'.black) := by
  intro ks
  induction ks with
  | nil =>
    intro st hinv hg0 hks
    constructor
    · intro cyc h
      rw [show detectLoop g [] st = none from rfl] at h
      cases h
    · intro _
      exact ⟨st, hinv, ⟨[], by simp⟩, by simp⟩
  | cons u rest ih =>
    intro st hinv hg0 hks
    have hukeys : u ∈ g.keys := hks u (by simp)
    have hrest : ∀ x ∈ rest, x ∈ g.keys :=
      fun x hx => hks x (List.mem_cons_of_mem u hx)
    by_cases hcond : (st.gray.contains u || st.black.contains u) = true
    · have hub : u ∈ st.black := by
        rcases (Bool.or_eq_true _ _).mp hcond with h | h
        · rw [hg0] at h; cases h
        · exact (contains_iff _ _).mp h
      have heq : detectLoop g (u :: rest) st = detectLoop g rest st := by
        rw [detectLoop_cons, if_pos hcond]
      obtain ⟨ih1, ih2⟩ := ih st hinv hg0 hrest
      constructor
      · intro cyc h
        rw [heq] at h
        exact ih1 cyc h
      · intro h
        rw [heq] at h
        obtain ⟨st', hinv', ⟨nb, hb⟩, hcov⟩ := ih2 h
        refine ⟨st', hinv', ⟨nb, hb⟩, ?_⟩
        intro x hx
        rcases List.mem_cons.mp hx with rfl | hx'
        · rw [hb]
          exact List.mem_append.mpr (Or.inl hub)
        · exact hcov x hx'
    · have hcondf : (st.gray.contains u || st.black.contains u) = false := by
        cases hcv : (st.gray.contains u || st.black.contains u)
        · rfl
        · exact absurd hcv hcond
      have hug : u ∉ st.gray := fun hm => by
        have := (contains_iff _ _).mpr hm
        rw [Bool.or_eq_false_iff] at hcondf
        rw [hcondf.1] at this
        cases this
      have hub : u ∉ st.black := fun hm => by
        have := (contains_iff _ _).mpr hm
        rw [Bool.or_eq_false_iff] at hcondf
        rw [hcondf.2] at this
        cases this
      obtain ⟨hv1, hv2⟩ := dfsVisit_ok g (dfsFuel g) u none st hinv hukeys
        hug hub hg0
      have hprog := dfsVisit_progress g (dfsFuel g) u none st hinv hukeys
        hug hub hg0 (by have := whiteCount_le g st; unfold dfsFuel; omega)
      rcases hres : dfsVisit g (dfsFuel g) u none st with _ | ⟨cycopt, st2⟩
      · exact absurd hres hprog
      · rcases cycopt with _ | cyc0
        · obtain ⟨hpost2, hub2⟩ := hv2 st2 hres
          have heq : detectLoop g (u :: rest) st = detectLoop g rest st2 := by
            rw [detectLoop_cons, if_neg (by rw [hcondf]; simp), hres]
          have hg02 : st2.gray = [] := by rw [hpost2.2.1, hg0]
          obtain ⟨ih1, ih2⟩ := ih st2 hpost2.1 hg02 hrest
          constructor
          · intro cyc h
            rw [heq] at h
            exact ih1 cyc h
          · intro h
            rw [heq] at h
            obtain ⟨st', hinv', ⟨nb, hb⟩, hcov⟩ := ih2 h
            obtain ⟨_, _, nb2, hb2⟩ := hpost2
            refine ⟨st', hinv', ⟨nb2 ++ nb, by rw [hb, hb2, List.append_assoc]⟩, ?_⟩
            intro x hx
            rcases List.mem_cons.mp hx with rfl | hx'
            · rw [hb]
              exact List.mem_append.mpr (Or.inl hub2)
            · exact hcov x hx'
        · have heq : detectLoop g (u :: rest) st = some cyc0 := by
            rw [detectLoop_cons, if_neg (by rw [hcondf]; simp), hres]
          constructor
          · intro cyc h
            rw [heq] at h
            have hcc : cyc0 = cyc := Option.some.inj h
            rw [← hcc]
            exact hv1 cyc0 st2 hres
          · intro h
            rw [heq] at h
            cases h

theorem detectCycleList_some_sound (g : DBTGraph) (cyc : List String)
    (h : detectCycleList g = some cyc) : CycleSound g cyc :=
  (detectLoop_spec g g.keys ⟨[], [], []⟩ (dfsInv_init g) rfl
    (fun _ hx => hx)).1 cyc h

theorem detectCycleList_none_acyclic (g : DBTGraph)
    (h : detectCycleList g = none) : ¬ HasClosedWalk (EdgeD g) := by
  obtain ⟨_, h2⟩ := detectLoop_spec g g.keys ⟨[], [], []⟩ (dfsInv_init g) rfl
    (fun x hx => hx)
  obtain ⟨st', hinv', _, hcov⟩ := h2 h
  exact no_walk_of_all_black g st'.black hinv'.black_inv hcov

/-! ## Claim theorems -/

/-- Claim C1 (code bug): on the spec's own three-task example (`T1` locks
`a.py`; `T2` locks `a.py`; `T3` locks `b.py` and depends on `T2`),
`create_waves` completes without aborting yet places `T3` in the same wave as
its pending predecessor `T2` (both in wave 2), because the dependency check
consults the live assigned set that already includes tasks added to the wave
currently being built.  The claimed invariant "every predecessor of a task in
wave n is placed in a wave m < n" therefore fails. -/
theorem createWaves_explicit_dep_same_wave :
    (createWaves c1Tasks).map (fun ws => ws.map (fun w => (w.wave_id, w.tasks.map Task.id)))
      = some [(1, ["T001"]), (2, ["T002", "T003"])]
    ∧ "T002" ∈ depGraph c1Tasks c1T3 ∧ c1T2.completed = false := by
  refine ⟨rfl, ?_, rfl⟩
  decide

/-- Claim C2: on any task list with unique task ids on which `create_waves`
completes, (a) a task whose completion flag is set is never placed in any
emitted wave, and (b) the assigned set is seeded with the completed tasks'
ids, so a pending task all of whose dependency-graph predecessors are
already-completed tasks passes the dependency check in the very first scan
and lands in the first emitted wave (the side condition that no other pending
task shares one of its locked files rules out the file-conflict exclusion,
which is independent of the dependency seeding). -/
theorem createWaves_completed_excluded_and_unblocking
    (tasks : List Task) (ws : List Wave)
    (hnd : (tasks.map Task.id).Nodup)
    (hws : createWaves tasks = some ws) :
    (∀ w ∈ ws, ∀ t ∈ w.tasks, t.completed = false)
    ∧ (∀ t ∈ tasks, t.completed = false →
        (∀ d ∈ depGraph tasks t, d ∈ seedAssigned tasks) →
        (∀ u ∈ tasks, u.completed = false → u.id ≠ t.id → sharesFile t u = false) →
        ∃ w rest, ws = w :: rest ∧ t ∈ w.tasks) := by
  constructor
  · exact wavesLoop_pending tasks (depGraph tasks) _ _ _ _ _
      (by intro w hw; cases hw) hws
  · intro t ht hpend hdep hconf
    unfold createWaves at hws
    simp only [wavesLoop] at hws
    have hseedlt : (seedAssigned tasks).length < tasks.length := by
      have h1 : (seedAssigned tasks).length ≤
          ((tasks.filter (fun x => x.completed)).map Task.id).length :=
        (List.dedup_sublist _).length_le
      rw [List.length_map] at h1
      exact lt_of_le_of_lt h1
        (length_filter_lt_of_mem (fun x => x.completed) tasks t ht hpend)
    rw [if_pos hseedlt] at hws
    have htid : t.id ∉ seedAssigned tasks := by
      intro hmem
      rw [seedAssigned, List.mem_dedup] at hmem
      obtain ⟨u, hu, hid⟩ := List.mem_map.mp hmem
      have hut : u = t :=
        List.inj_on_of_nodup_map hnd (List.mem_filter.mp hu).1 ht hid
      rw [hut] at hu
      have := (List.mem_filter.mp hu).2
      rw [hpend] at this
      cases this
    have htrem : t ∈ (tasks.filter (fun x => !x.completed)).filter
        (fun x => !(seedAssigned tasks).contains x.id) := by
      refine List.mem_filter.mpr ⟨List.mem_filter.mpr ⟨ht, ?_⟩, ?_⟩
      · rw [hpend]; rfl
      · rw [contains_eq_false _ _ htid]; rfl
    rw [if_neg (by
      intro h
      exact List.ne_nil_of_mem htrem (List.isEmpty_iff.mp h))] at hws
    obtain ⟨pre, post, hsplit⟩ := List.append_of_mem htrem
    have hremnd : (((tasks.filter (fun x => !x.completed)).filter
        (fun x => !(seedAssigned tasks).contains x.id)).map Task.id).Nodup := by
      have hsub : List.Sublist ((tasks.filter (fun x => !x.completed)).filter
          (fun x => !(seedAssigned tasks).contains x.id)) tasks :=
        (List.filter_sublist _).trans (List.filter_sublist _)
      exact (hsub.map Task.id).nodup hnd
    have hpid : ∀ u ∈ pre, u.id ≠ t.id := by
      intro u hu heq
      rw [hsplit, List.map_append] at hremnd
      have hdisj := List.disjoint_of_nodup_append hremnd
      have h1 : u.id ∈ pre.map Task.id := List.mem_map_of_mem _ hu
      have h2 : u.id ∈ (t :: post).map Task.id := by
        rw [heq, List.map_cons]
        exact List.mem_cons_self _ _
      exact hdisj h1 h2
    have hpconf : ∀ u ∈ pre, sharesFile t u = false := by
      intro u hu
      have hurem : u ∈ (tasks.filter (fun x => !x.completed)).filter
          (fun x => !(seedAssigned tasks).contains x.id) := by
        rw [hsplit]
        exact List.mem_append.mpr (Or.inl hu)
      have h1 := List.mem_filter.mp hurem
      have h2 := List.mem_filter.mp h1.1
      exact hconf u h2.1 (by simpa using h2.2) (hpid u hu)
    have hplace := scanWave_places (depGraph tasks) t pre post (seedAssigned tasks) []
      hdep htid hpid hpconf (fun f _ h => absurd h (List.not_mem_nil f))
    rw [← hsplit] at hplace
    rw [if_neg (by
      intro h
      exact List.ne_nil_of_mem hplace (List.isEmpty_iff.mp h))] at hws
    obtain ⟨suffix, hsuf⟩ := wavesLoop_extends tasks (depGraph tasks) _ _ _ _ _ hws
    rw [List.nil_append] at hsuf
    exact ⟨_, suffix, by rw [hsuf]; rfl, hplace⟩

/-- Claim C2 witness: for the two-task list `[c2Done, c2Pend]` (one completed
task, one pending task depending only on it) the completed task appears in no
emitted wave and the pending task is placed in the first wave. -/
theorem createWaves_completed_excluded_and_unblocking_witness :
    (∀ w ∈ c2Ws, ∀ t ∈ w.tasks, t.completed = false)
    ∧ ∃ w rest, c2Ws = w :: rest ∧ c2Pend ∈ w.tasks :=
  ⟨(createWaves_completed_excluded_and_unblocking [c2Done, c2Pend] c2Ws
      (by decide) (by decide)).1,
   (createWaves_completed_excluded_and_unblocking [c2Done, c2Pend] c2Ws
      (by decide) (by decide)).2 c2Pend (by decide) (by decide) (by decide)
      (by decide)⟩

/-- Claim C3 (code bug): `SentinelRunner.run` returns directly from the
placeholder-FAIL branch (violations found, fail-on-detect enabled) and from
the no-test-command branch, in both cases before control reaches the phase-5
`_write_manifest` call — contradicting the claim (and the code's own comment)
that the manifest is always written. -/
theorem sentinelRun_early_exit_skips_manifest :
    (sentinelRun c3FailInput).result = SResult.FAIL
    ∧ (sentinelRun c3FailInput).manifest_written = false
    ∧ (sentinelRun c3NoTestInput).result = SResult.PASS
    ∧ (sentinelRun c3NoTestInput).manifest_written = false :=
  ⟨rfl, rfl, rfl, rfl⟩

/-- Claim C5: over any subset of node names whose in-scope upstream edge
relation is acyclic, `assign_waves` (a) assigns strictly increasing levels
along every in-subset upstream edge, (b) assigns level 1 to every in-scope
name incident to no in-subset edge, and (c) assigns level 1 (the
`setdefault`) to every in-scope name that the Kahn loop never dequeued. -/
theorem assign_waves_levels (names : List String) (g : DBTGraph)
    (hacyc : ¬ HasClosedWalk (EdgeIn g names.dedup)) :
    (∀ a b, EdgeIn g names.dedup a b →
      ∃ wa wb, waveOf (assign_waves names g) a = some wa
        ∧ waveOf (assign_waves names g) b = some wb ∧ wa < wb)
    ∧ (∀ n ∈ names.dedup,
        (∀ m, ¬ EdgeIn g names.dedup m n ∧ ¬ EdgeIn g names.dedup n m) →
        waveOf (assign_waves names g) n = some 1)
    ∧ (∀ n ∈ names.dedup, n ∉ (kahnAssigned names g).map Prod.fst →
        waveOf (assign_waves names g) n = some 1) := by
  have hscope : names.dedup.Nodup := List.nodup_dedup names
  obtain ⟨⟨rest, hrest⟩, hnodupK, hscopeK, hpredK, hexitK, hq1K⟩ :=
    kahnLoop_spec g names.dedup hscope (names.dedup.length + 1)
      (names.dedup.map (fun n =>
        (n, ((upstreamInScope g names.dedup n).length : Int))))
      (names.dedup.filter (fun n =>
        (upstreamInScope g names.dedup n).length == 0))
      1 [] (kahnInit names g) (by simp)
  have hKdef : kahnAssigned names g = kahnLoop (adjacencyOf g names.dedup)
      (names.dedup.length + 1)
      (names.dedup.map (fun n =>
        (n, ((upstreamInScope g names.dedup n).length : Int))))
      (names.dedup.filter (fun n =>
        (upstreamInScope g names.dedup n).length == 0)) 1 [] := rfl
  rw [← hKdef] at hnodupK hscopeK hpredK hexitK hq1K
  have hAdef : assign_waves names g = kahnAssigned names g ++
      ((names.dedup.filter (fun n =>
        !((kahnAssigned names g).map Prod.fst).contains n)).map
        (fun n => (n, 1))) := rfl
  have hfinnodup : ((assign_waves names g).map Prod.fst).Nodup := by
    rw [hAdef, List.map_append, List.map_map]
    have hdefkeys : ((names.dedup.filter (fun n =>
        !((kahnAssigned names g).map Prod.fst).contains n)).map
        (Prod.fst ∘ fun n => (n, 1)))
        = names.dedup.filter (fun n =>
          !((kahnAssigned names g).map Prod.fst).contains n) := by
      simp [Function.comp_def]
    rw [hdefkeys]
    refine List.Nodup.append hnodupK (hscope.filter _) ?_
    intro a haK hafil
    have h2 := (List.mem_filter.mp hafil).2
    rw [(contains_iff _ _).mpr haK] at h2
    exact absurd h2 (by simp)
  have hall : ∀ b ∈ names.dedup, b ∈ (kahnAssigned names g).map Prod.fst := by
    by_contra hcon
    push_neg at hcon
    obtain ⟨b₀, hb₀s, hb₀k⟩ := hcon
    have hstep : ∀ b,
        (b ∈ names.dedup ∧ b ∉ (kahnAssigned names g).map Prod.fst) →
        ∃ a, EdgeIn g names.dedup a b ∧
          (a ∈ names.dedup ∧ a ∉ (kahnAssigned names g).map Prod.fst) := by
      rintro b ⟨hb1, hb2⟩
      obtain ⟨a, hE, haK⟩ := hexitK b hb1 hb2
      exact ⟨a, hE, mem_upstreamInScope g _ a b hE.2, haK⟩
    have hstep' : ∀ b, ∃ a,
        (b ∈ names.dedup ∧ b ∉ (kahnAssigned names g).map Prod.fst) →
          (EdgeIn g names.dedup a b ∧
            (a ∈ names.dedup ∧ a ∉ (kahnAssigned names g).map Prod.fst)) := by
      intro b
      by_cases hb : b ∈ names.dedup ∧ b ∉ (kahnAssigned names g).map Prod.fst
      · obtain ⟨a, h1, h2⟩ := hstep b hb
        exact ⟨a, fun _ => ⟨h1, h2⟩⟩
      · exact ⟨b, fun h => absurd h hb⟩
    choose F hF using hstep'
    have hseqP : ∀ k, (F^[k] b₀ ∈ names.dedup ∧
        F^[k] b₀ ∉ (kahnAssigned names g).map Prod.fst) := by
      intro k
      induction k with
      | zero => exact ⟨hb₀s, hb₀k⟩
      | succ k ihk =>
        rw [Function.iterate_succ_apply']
        exact (hF _ ihk).2
    have hseqE : ∀ k, EdgeIn g names.dedup (F^[k + 1] b₀) (F^[k] b₀) := by
      intro k
      rw [Function.iterate_succ_apply']
      exact (hF _ (hseqP k)).1
    have hmaps : ∀ k ∈ Finset.range (names.dedup.length + 1),
        F^[k] b₀ ∈ names.dedup.toFinset := by
      intro k _
      exact List.mem_toFinset.mpr (hseqP k).1
    have hcard : names.dedup.toFinset.card
        < (Finset.range (names.dedup.length + 1)).card := by
      rw [Finset.card_range]
      exact Nat.lt_succ_of_le (List.toFinset_card_le _)
    obtain ⟨i, _, j, _, hne, heq⟩ :=
      Finset.exists_ne_map_eq_of_card_lt_of_maps_to hcard hmaps
    have hcycle : ∀ i j : Nat, i < j → F^[i] b₀ = F^[j] b₀ → False := by
      intro i j hij hequ
      apply hacyc
      refine ⟨fun k => F^[j - k] b₀, j - i, by omega, ?_, ?_⟩
      · show F^[j - (j - i)] b₀ = F^[j - 0] b₀
        rw [show j - (j - i) = i from by omega, show j - 0 = j from rfl]
        exact hequ
      · intro k hk
        show EdgeIn g names.dedup (F^[j - k] b₀) (F^[j - (k + 1)] b₀)
        rw [show j - k = (j - (k + 1)) + 1 from by omega]
        exact hseqE _
    rcases Nat.lt_or_ge i j with h | h
    · exact hcycle i j h heq
    · exact hcycle j i (by omega) heq.symm
  refine ⟨?_, ?_, ?_⟩
  · intro a b hE
    have hbK := hall b hE.1
    obtain ⟨p, hbmem, hb2⟩ := List.mem_map.mp hbK
    obtain ⟨wa, hwaK, hlt⟩ := hpredK p hbmem a (by rw [hb2]; exact hE)
    have hbK2 : (b, p.2) ∈ kahnAssigned names g := by
      rw [← hb2, Prod.mk.eta]
      exact hbmem
    refine ⟨wa, p.2, ?_, ?_, hlt⟩
    · exact waveOf_eq_of_mem _ hfinnodup a wa
        (by rw [hAdef]; exact List.mem_append.mpr (Or.inl hwaK))
    · exact waveOf_eq_of_mem _ hfinnodup b p.2
        (by rw [hAdef]; exact List.mem_append.mpr (Or.inl hbK2))
  · intro n hn hiso
    have hUnil : upstreamInScope g names.dedup n = [] := by
      rw [List.eq_nil_iff_forall_not_mem]
      intro u hu
      exact (hiso u).1 ⟨hn, hu⟩
    have hq0 : n ∈ names.dedup.filter (fun n =>
        (upstreamInScope g names.dedup n).length == 0) :=
      List.mem_filter.mpr ⟨hn, by rw [hUnil]; rfl⟩
    exact waveOf_eq_of_mem _ hfinnodup n 1
      (by rw [hAdef]; exact List.mem_append.mpr (Or.inl (hq1K n hq0)))
  · intro n hn hnK
    have hmem : (n, 1) ∈ (names.dedup.filter (fun m =>
        !((kahnAssigned names g).map Prod.fst).contains m)).map
        (fun m => (m, 1)) :=
      List.mem_map.mpr ⟨n, List.mem_filter.mpr
        ⟨hn, by rw [contains_eq_false _ _ hnK]; rfl⟩, rfl⟩
    exact waveOf_eq_of_mem _ hfinnodup n 1
      (by rw [hAdef]; exact List.mem_append.mpr (Or.inr hmem))

/-- Claim C5 witness: on the spec's example graph (plus one isolated name)
the edge `stg_orders → fct_orders` yields strictly increasing levels, and the
isolated name gets level 1. -/
theorem assign_waves_levels_witness :
    (∃ wa wb, waveOf (assign_waves c5Names c5G) "stg_orders" = some wa
      ∧ waveOf (assign_waves c5Names c5G) "fct_orders" = some wb ∧ wa < wb)
    ∧ waveOf (assign_waves c5Names c5G) "lone_model" = some 1 :=
  ⟨(assign_waves_levels c5Names c5G c5_acyclic).1 "stg_orders" "fct_orders"
      (by decide),
   (assign_waves_levels c5Names c5G c5_acyclic).2.1 "lone_model" (by decide)
      c5_lone_isolated⟩

/-- Claim C6 counterexample: with granularity per-n, n = 2, over five
developer tasks, the sentinel injected after the final task `T005` depends on
`["T004", "T005"]` (the trailing window of n tasks), not on task 5 alone as
the claim states. -/
theorem injectPerN_final_group_counterexample :
    ((injectPerN 2 c6Tasks).map (fun t => (t.task_id, t.dependencies)))
      = [("T001", []), ("T002", []), ("SENTINEL-T002", ["T001", "T002"]),
         ("T003", []), ("T004", []), ("SENTINEL-T004", ["T003", "T004"]),
         ("T005", []), ("SENTINEL-T005", ["T004", "T005"])]
    ∧ (["T004", "T005"] : List String) ≠ ["T005"] := by
  refine ⟨rfl, ?_⟩
  decide

/-- Claim C6 (amended): per-n injection with n = 2 over any five developer
tasks inserts sentinels immediately after tasks 2, 4 and 5; the first two
depend on exactly their groups (tasks 1–2, tasks 3–4), and the final sentinel
depends on the trailing window `dev_tasks[3:5]`, i.e. tasks 4 and 5 — not on
task 5 alone. -/
theorem injectPerN_per2_five_tasks (t1 t2 t3 t4 t5 : PlanTask) :
    injectPerN 2 [t1, t2, t3, t4, t5] =
      [t1, t2, mkSentinel t2 [t1, t2], t3, t4, mkSentinel t4 [t3, t4],
       t5, mkSentinel t5 [t4, t5]]
    ∧ (mkSentinel t2 [t1, t2]).dependencies = [t1.task_id, t2.task_id]
    ∧ (mkSentinel t4 [t3, t4]).dependencies = [t3.task_id, t4.task_id]
    ∧ (mkSentinel t5 [t4, t5]).dependencies = [t4.task_id, t5.task_id] :=
  ⟨rfl, rfl, rfl, rfl⟩

/-- Claim C7 counterexample: for the assignment sending task `A` to wave 1
and task `B` to wave 3 with no task at wave 2, the rebuilt list carries
wave_id values `[1, 3]`, which is not the contiguous 1-based numbering
`[1, 2]` the claim asserts. -/
theorem rebuildWaves_gap_counterexample :
    (rebuildWaves c7Assign).map (fun w => w.wave_id) = [1, 3]
    ∧ ([1, 3] : List Nat) ≠ List.range' 1 (rebuildWaves c7Assign).length := by
  refine ⟨rfl, ?_⟩
  decide

/-- Claim C7 (amended): the rebuilt wave list is 1-based and strictly
increasing — every emitted wave is nonempty, carries its original wave
number (≥ 1) as `wave_id`, and those ids are strictly increasing.  Wave
numbers that received no tasks are skipped without renumbering the rest, so
the ids need not be contiguous. -/
theorem rebuildWaves_ids_strictly_increasing (l : List (PlanTask × Nat)) :
    ((rebuildWaves l).map (fun w => w.wave_id)).Pairwise (· < ·)
    ∧ ∀ w ∈ rebuildWaves l, 1 ≤ w.wave_id ∧ w.tasks ≠ [] := by
  constructor
  · apply waveId_filterMap_pairwise
    · intro x w hw
      dsimp only at hw
      split at hw
      · exact absurd hw (by simp)
      · cases hw; rfl
    · exact List.pairwise_lt_range' 1 (maxWaveNum l)
  · intro w hw
    obtain ⟨wid, hwid, hfw⟩ := List.mem_filterMap.mp hw
    dsimp only at hfw
    split at hfw
    · exact absurd hfw (by simp)
    · next hne =>
      cases hfw
      refine ⟨(List.mem_range'_1.mp hwid).1, ?_⟩
      simpa [List.isEmpty_iff] using hne

/-- Claim C7 witness: the amended statement instantiated at the gap
assignment — ids `[1, 3]` are strictly increasing and the first emitted wave
is nonempty with wave_id ≥ 1. -/
theorem rebuildWaves_ids_strictly_increasing_witness :
    ((rebuildWaves c7Assign).map (fun w => w.wave_id)).Pairwise (· < ·)
    ∧ (1 ≤ c7WaveA.wave_id ∧ c7WaveA.tasks ≠ []) :=
  ⟨(rebuildWaves_ids_strictly_increasing c7Assign).1,
   (rebuildWaves_ids_strictly_increasing c7Assign).2 c7WaveA (by decide)⟩

/-- Claim C8 (code bug): `_find_cross_wave_conflicts` scans every wave of the
plan — it receives no marker of the verification task's own wave — so a
changed file claimed only by the verification task's own parent task, in its
own (and only) wave, is still reported as a cross-wave conflict and marks the
radius exceeded, contradicting the claim (and the function's own docstring,
which promises "other waves' file_locks"). -/
theorem findCrossWaveConflicts_flags_own_wave :
    (evaluateRadius 3 150 false [⟨"src/auth.py", 1, 0⟩] [] [c8OwnWave]).violations
      = ["cross_wave"]
    ∧ (evaluateRadius 3 150 false [⟨"src/auth.py", 1, 0⟩] [] [c8OwnWave]).budget_exceeded
      = true
    ∧ findCrossWaveConflicts ["src/auth.py"] [c8OwnWave] = ["src/auth.py"] :=
  ⟨rfl, rfl, rfl⟩

/-- Claim C9 counterexample: after one `annotate_tasks` pass has placed the
cascade warning under the pending `T010` line, running the same annotation
again changes the file content (a second copy of the warning block is
inserted) — it is not a no-op. -/
theorem annotateContent_duplicate_counterexample :
    annotateContent [c9Tid] c9Warning (annotateContent [c9Tid] c9Warning c9Lines)
      ≠ annotateContent [c9Tid] c9Warning c9Lines := by
  decide

/-- Claim C9 (amended): `annotate_tasks` inserts the warning block
unconditionally under the first matching pending task line; whenever some
line matches an affected task id, a second identical invocation inserts the
block again, so re-annotation changes the content rather than being a
no-op. -/
theorem annotateContent_not_idempotent (tid warning : Line) (lines : List Line)
    (h : ∃ l ∈ lines, lineMatches tid l = true) :
    annotateContent [tid] warning (annotateContent [tid] warning lines)
      ≠ annotateContent [tid] warning lines := by
  have h1 : ∀ x : List Line, annotateContent [tid] warning x = insertWarning tid warning x :=
    fun _ => rfl
  intro heq
  have h2 : ∃ l ∈ insertWarning tid warning lines, lineMatches tid l = true := by
    obtain ⟨l, hl, hm⟩ := h
    exact ⟨l, insertWarning_mem tid warning lines l hl, hm⟩
  have e1 := insertWarning_length tid warning lines h
  have e2 := insertWarning_length tid warning _ h2
  rw [h1, h1] at heq
  have := congrArg List.length heq
  rw [e2, e1] at this
  omega

/-- Claim C9 witness: the non-idempotence theorem applied to a concrete task
list containing the pending line for `T011`. -/
theorem annotateContent_not_idempotent_witness :
    (∃ l ∈ c9WLines, lineMatches c9WTid l = true)
    ∧ annotateContent [c9WTid] c9Warning (annotateContent [c9WTid] c9Warning c9WLines)
        ≠ annotateContent [c9WTid] c9Warning c9WLines :=
  ⟨by decide, annotateContent_not_idempotent c9WTid c9Warning c9WLines (by decide)⟩

/-- Claim C10: the files and lines axes use strict comparison — `files` is
recorded as violated iff the changed-file count strictly exceeds the budget,
`lines` iff the summed added+removed lines strictly exceed the budget; and at
exact equality on both axes, with no interface changes and no cross-wave
files, the report has `budget_exceeded = false` and an empty violations
list. -/
theorem evaluateRadius_strict_comparison
    (maxF maxL : Nat) (allowI : Bool) (files : List FileChange)
    (reports : List InterfaceChangeReport) (waves : List PlanWave) :
    (("files" ∈ (evaluateRadius maxF maxL allowI files reports waves).violations)
        ↔ files.length > maxF)
    ∧ (("lines" ∈ (evaluateRadius maxF maxL allowI files reports waves).violations)
        ↔ (files.map (fun fc => fc.lines_added + fc.lines_removed)).sum > maxL)
    ∧ (files.length = maxF →
        (files.map (fun fc => fc.lines_added + fc.lines_removed)).sum = maxL →
        (reports.map (fun r =>
          r.breaking_changes.length + r.non_breaking_changes.length)).sum = 0 →
        findCrossWaveConflicts ((files.map (fun fc => fc.path)).dedup) waves = [] →
        (evaluateRadius maxF maxL allowI files reports waves).budget_exceeded = false
        ∧ (evaluateRadius maxF maxL allowI files reports waves).violations = []) := by
  have hv : (evaluateRadius maxF maxL allowI files reports waves).violations =
      (if files.length > maxF then ["files"] else []) ++
      (if (files.map (fun fc => fc.lines_added + fc.lines_removed)).sum > maxL then
        ["lines"] else []) ++
      (if (reports.map (fun r =>
            r.breaking_changes.length + r.non_breaking_changes.length)).sum > 0
          && !allowI then ["interface"] else []) ++
      (if !(findCrossWaveConflicts ((files.map (fun fc => fc.path)).dedup)
            waves).isEmpty then ["cross_wave"] else []) := rfl
  have hb : (evaluateRadius maxF maxL allowI files reports waves).budget_exceeded =
      !((evaluateRadius maxF maxL allowI files reports waves).violations).isEmpty := rfl
  refine ⟨?_, ?_, ?_⟩
  · rw [hv, mem_axis_blocks]
    simp
  · rw [hv, mem_axis_blocks]
    simp
  · intro e1 e2 e3 e4
    have hc1 : ¬ files.length > maxF := by omega
    have hc2 : ¬ (files.map (fun fc => fc.lines_added + fc.lines_removed)).sum > maxL := by
      omega
    have hveq : (evaluateRadius maxF maxL allowI files reports waves).violations = [] := by
      rw [hv, e3, e4, if_neg hc1, if_neg hc2]
      simp
    exact ⟨by rw [hb, hveq]; rfl, hveq⟩

/-- Claim C10 witness: at exactly 3 changed files (budget 3) summing exactly
150 changed lines (budget 150), with no interface reports and an empty plan,
the budget is not exceeded and no axis is violated. -/
theorem evaluateRadius_strict_comparison_witness :
    (evaluateRadius 3 150 false c10Files [] []).budget_exceeded = false
    ∧ (evaluateRadius 3 150 false c10Files [] []).violations = [] :=
  (evaluateRadius_strict_comparison 3 150 false c10Files [] []).2.2 rfl rfl rfl rfl

/-- **C4.** `CycleDetector.detect_cycle` returns `None` for every acyclic
model graph; for every model graph containing a cycle of the downstream
edge relation it returns a non-empty path (the node list joined with
`" → "`) that contains every node lying on the reported cycle. -/
theorem detect_cycle_correct (g : DBTGraph) :
    (¬ HasClosedWalk (EdgeD g) → detect_cycle g = none) ∧
    (HasClosedWalk (EdgeD g) →
      ∃ p, detectCycleList g = some p ∧ p ≠ [] ∧
        detect_cycle g = some (String.intercalate " → " p) ∧
        ∃ (f : Nat → String) (n : Nat), 0 < n ∧ f n = f 0 ∧
          (∀ k < n, EdgeD g (f k) (f (k + 1))) ∧ ∀ k : Nat, f k ∈ p) := by
  constructor
  · intro hac
    rcases hres : detectCycleList g with _ | p
    · simp [detect_cycle, hres]
    · obtain ⟨_, f, n, hn, hcl, hed, _⟩ := detectCycleList_some_sound g p hres
      exact absurd ⟨f, n, hn, hcl, hed⟩ hac
  · intro hcyc
    rcases hres : detectCycleList g with _ | p
    · exact absurd hcyc (detectCycleList_none_acyclic g hres)
    · obtain ⟨hne, f, n, hn, hcl, hed, hmem⟩ :=
        detectCycleList_some_sound g p hres
      exact ⟨p, rfl, hne, by simp [detect_cycle, hres], f, n, hn, hcl, hed,
        hmem⟩

/-- C4 witness: the acyclic branch on the two-model chain `a → b`, the
cyclic branch on the two-model loop `a → b → a`. -/
theorem detect_cycle_correct_witness :
    detect_cycle c4Acyc = none ∧
    (∃ p, detectCycleList c4Cyc = some p ∧ p ≠ [] ∧
      detect_cycle c4Cyc = some (String.intercalate " → " p) ∧
      ∃ (f : Nat → String) (n : Nat), 0 < n ∧ f n = f 0 ∧
        (∀ k < n, EdgeD c4Cyc (f k) (f (k + 1))) ∧ ∀ k : Nat, f k ∈ p) := by
  constructor
  · apply (detect_cycle_correct c4Acyc).1
    apply no_closed_walk_of_rank (EdgeD c4Acyc)
      (fun s => if s == "b" then 1 else 0)
    intro a b hab
    have ha := edgeD_src_mem c4Acyc a b hab
    have hb := edgeD_tgt_mem c4Acyc a b hab
    have hka : a = "a" ∨ a = "b" := by
      simpa [c4Acyc, DBTGraph.keys] using ha
    have hkb : b = "a" ∨ b = "b" := by
      simpa [c4Acyc, DBTGraph.keys] using hb
    rcases hka with rfl | rfl <;> rcases hkb with rfl | rfl
    · exact absurd hab (by decide)
    · decide
    · exact absurd hab (by decide)
    · exact absurd hab (by decide)
  · apply (detect_cycle_correct c4Cyc).2
    exact ⟨fun k => if k % 2 == 0 then "a" else "b", 2, by decide, rfl,
      by decide⟩

end DevKid
